import Mathlib

/-!
Verification of the `completion` crate's join/race combinator engine and its
`CatchUnwind` adapter.

The `CatchUnwind` adapter and the tuple-arity table are embedded directly from
`src/future/mod.rs` and `src/future/join/tuple/mod.rs`.  The join driver itself
(the `zip` / `try_zip` / `race` / `race_ok` submodules) is not part of the
source tree available here, so it is modelled from the specification's
description of the Wake Dispatch Table, the Slot State Machine, the Join
Driver and the four Combinator Policies.
-/

namespace Completion

/-! ## Polling primitives (core::task::Poll analogue) -/

/-- Outcome of a single poll call: `Poll::Ready(a)` or `Poll::Pending`. -/
inductive Poll (α : Type u) where
  | ready (a : α)
  | pending
deriving DecidableEq

/-- Outcome of running a closure under `std::panic::catch_unwind`: either the
closure panicked with a payload, or it completed with a value. -/
inductive PanicOutcome (π : Type u) (α : Type v) where
  | panicked (payload : π)
  | completed (a : α)
deriving DecidableEq

/-! ## CatchUnwind (src/future/mod.rs, lines 186-196)

The inner future's behaviour at the moment of the call is abstracted as the
`PanicOutcome` of invoking its `poll`/`poll_cancel` under `catch_unwind`. -/

/-- Embedding of `CompletionFuture::poll` for `CatchUnwind`
(src/future/mod.rs line 190):
`catch_unwind(AssertUnwindSafe(|| self.project().inner.poll(cx)))?.map(Ok)`.
The `?` on the `Result` returns `Poll::Ready(Err(payload))` on a panic;
otherwise the inner poll result is mapped through `Ok`. -/
def CatchUnwind.poll (r : PanicOutcome π (Poll α)) : Poll (Except π α) :=
  match r with
  | .panicked p => .ready (.error p)
  | .completed .pending => .pending
  | .completed (.ready v) => .ready (.ok v)

/-- Embedding of `CompletionFuture::poll_cancel` for `CatchUnwind`
(src/future/mod.rs lines 193-194):
`catch_unwind(AssertUnwindSafe(|| self.project().inner.poll_cancel(cx))).unwrap_or(Poll::Ready(()))`. -/
def CatchUnwind.pollCancel (r : PanicOutcome π (Poll Unit)) : Poll Unit :=
  match r with
  | .panicked _ => .ready ()
  | .completed q => q

/-! ## Tuple arities (src/future/join/tuple/mod.rs, lines 6-37)

`apply_on_tuples!` invokes its argument macro once per line, with 2 up to 26
type parameters; the `zip` / `try_zip` / `race` / `race_ok` tuple forms are
generated through it, one instance per listed arity. -/

/-- Number of type parameters in each `$macro! { ... }` line of
`apply_on_tuples` (src/future/join/tuple/mod.rs lines 10-34), in order. -/
def applyOnTuplesArities : List Nat :=
  [2, 3, 4, 5, 6, 7, 8, 9, 10, 11, 12, 13, 14, 15, 16, 17, 18, 19, 20, 21,
   22, 23, 24, 25, 26]

/-! ## The join engine model

Modelled from the spec: the join driver sources (`join/tuple/base.rs` and the
four policy submodules re-exported by `src/future/join/tuple/mod.rs`) are not
in the source tree, so the Slot State Machine (spec §4.3), Wake Dispatch Table
(§4.2), Join Driver (§4.4) and Combinator Policies (§4.5) are formalised from
the specification text. -/

/-- Modelled from the spec: per-slot lifecycle states (§4.3). -/
inductive SlotState (α : Type u) where
  | running
  | finished (out : α)
  | cancelRequested
  | cancelled
deriving DecidableEq

/-- A slot state is terminal when it is `finished` or `cancelled` (§4.3). -/
def SlotState.isTerminal : SlotState α → Bool
  | .finished _ => true
  | .cancelled => true
  | _ => false

/-- A slot in this state receives a poll when its wake flag is set:
`running` slots get `poll_ready`, `cancelRequested` slots get `poll_cancel`
(§4.4 step 2). -/
def SlotState.pollable : SlotState α → Bool
  | .running => true
  | .cancelRequested => true
  | _ => false

/-- The output recorded in a `finished` state, if any. -/
def SlotState.getOutput : SlotState α → Option α
  | .finished out => some out
  | _ => none

/-- Modelled from the spec: an Operation's observable behaviour script (§4.1).
`poll_ready` returns `Pending` for the first `readyAfter` calls and then
`Done(output)`; `poll_cancel` returns `Pending` for the first `cancelAfter`
calls and then `Cancelled`. -/
structure Operation (α : Type u) where
  readyAfter : Nat
  output : α
  cancelAfter : Nat
deriving DecidableEq

/-- Modelled from the spec: one operation plus its join-local metadata (§3):
poll counters for the behaviour script, lifecycle state, and the pending-wake
flag from the Wake Dispatch Table. -/
structure Slot (α : Type u) where
  op : Operation α
  readyPolls : Nat
  cancelPolls : Nat
  state : SlotState α
  wake : Bool
deriving DecidableEq

/-- One `poll_ready` call on a slot's operation (§4.1, §4.3):
`Running --poll_ready=Pending--> Running` (counter advances) or
`Running --poll_ready=Done--> Finished(output)`. -/
def Slot.pollReady (s : Slot α) : Slot α :=
  if s.readyPolls < s.op.readyAfter then
    { s with readyPolls := s.readyPolls + 1 }
  else
    { s with state := .finished s.op.output }

/-- One `poll_cancel` call on a slot's operation (§4.1, §4.3):
`CancelRequested --poll_cancel=Pending--> CancelRequested` or
`CancelRequested --poll_cancel=Cancelled--> Cancelled`. -/
def Slot.pollCancel (s : Slot α) : Slot α :=
  if s.cancelPolls < s.op.cancelAfter then
    { s with cancelPolls := s.cancelPolls + 1 }
  else
    { s with state := .cancelled }

/-- Modelled from the spec: the four Combinator Policies (§4.5). -/
inductive Policy where
  | zip
  | tryZip
  | race
  | raceOk
deriving DecidableEq

/-- Whether a slot finishing with output `out` triggers group completion for
this policy (§4.5 completion-trigger column): `zip` waits for everyone,
`try_zip` fails fast on an error, `race` completes on the first finisher,
`race_ok` on the first success. -/
def Policy.triggersOn (p : Policy) (isError : α → Bool) (out : α) : Bool :=
  match p with
  | .zip => false
  | .tryZip => isError out
  | .race => true
  | .raceOk => !isError out

/-- Modelled from the spec: a Join Group (§3): the ordered fixed collection of
slots, the active policy, the `try_zip`/`race_ok` classification hook (§6),
and the pending completion trigger (index and output of the slot whose
finishing triggered completion, if any). -/
structure Group (α : Type u) where
  policy : Policy
  isError : α → Bool
  slots : List (Slot α)
  trigger : Option (Nat × α)

/-- Modelled from the spec: the Group Result shapes of the four policies
(§4.5 Group-Result column). -/
inductive GroupResult (α : Type u) where
  | allOutputs (outs : List α)
  | firstError (e : α)
  | winner (out : α)
  | allErrors (errs : List α)
deriving DecidableEq

/-- Outputs of all `finished` slots, in slot (construction) order. -/
def finishedOutputs (slots : List (Slot α)) : List α :=
  slots.filterMap fun s => s.state.getOutput

/-- Every slot is in a terminal state (§4.4 step 4 guard). -/
def allTerminal (slots : List (Slot α)) : Bool :=
  slots.all fun s => s.state.isTerminal

/-- Modelled from the spec: steps 1-2 of the Join Driver (§4.4). Walk the
slots in increasing index order; a slot whose pending-wake flag is set has the
flag cleared and is polled according to its state; a slot transitioning to
`Finished` may set the completion trigger per the active policy. Returns the
updated slots, the trigger, and the indices of the slots that were polled. -/
def drivePass (pol : Policy) (isErr : α → Bool) :
    Nat → Option (Nat × α) → List (Slot α) → List (Slot α) × Option (Nat × α) × List Nat
  | _, trig, [] => ([], trig, [])
  | i, trig, s :: rest =>
    if s.wake then
      match s.state with
      | .running =>
        let s1 := Slot.pollReady { s with wake := false }
        let trig1 :=
          match s1.state with
          | .finished out => if trig.isNone && pol.triggersOn isErr out then some (i, out) else trig
          | _ => trig
        let r := drivePass pol isErr (i + 1) trig1 rest
        (s1 :: r.1, r.2.1, i :: r.2.2)
      | .cancelRequested =>
        let s1 := Slot.pollCancel { s with wake := false }
        let r := drivePass pol isErr (i + 1) trig rest
        (s1 :: r.1, r.2.1, i :: r.2.2)
      | .finished _ =>
        let r := drivePass pol isErr (i + 1) trig rest
        ({ s with wake := false } :: r.1, r.2.1, r.2.2)
      | .cancelled =>
        let r := drivePass pol isErr (i + 1) trig rest
        ({ s with wake := false } :: r.1, r.2.1, r.2.2)
    else
      let r := drivePass pol isErr (i + 1) trig rest
      (s :: r.1, r.2.1, r.2.2)

/-- Modelled from the spec: step 3 of the Join Driver (§4.4): once the policy
has signalled completion, every slot still `Running` transitions to
`CancelRequested`. -/
def cancelRunning (slots : List (Slot α)) : List (Slot α) :=
  slots.map fun s =>
    match s.state with
    | .running => { s with state := .cancelRequested }
    | _ => s

/-- Modelled from the spec: the Group Result produced once all slots are
terminal (§4.5 Group-Result column). -/
def Group.result (g : Group α) : Option (GroupResult α) :=
  match g.policy with
  | .zip => some (.allOutputs (finishedOutputs g.slots))
  | .tryZip =>
    match g.trigger with
    | some (_, out) => some (.firstError out)
    | none => some (.allOutputs (finishedOutputs g.slots))
  | .race =>
    match g.trigger with
    | some (_, out) => some (.winner out)
    | none => none
  | .raceOk =>
    match g.trigger with
    | some (_, out) => some (.winner out)
    | none => some (.allErrors (finishedOutputs g.slots))

/-- Modelled from the spec: one full Join Driver step (§4.4 steps 1-4).
Returns the updated group, the indices polled this step, and the Group Result
when the step is permitted to yield it (all slots terminal). -/
def Group.step (g : Group α) : Group α × List Nat × Option (GroupResult α) :=
  let p := drivePass g.policy g.isError 0 g.trigger g.slots
  let slots1 := if p.2.1.isSome then cancelRunning p.1 else p.1
  let g1 : Group α := { g with slots := slots1, trigger := p.2.1 }
  (g1, p.2.2, if allTerminal slots1 then g1.result else none)

/-- Set the pending-wake flag of slot `i` (out-of-range deliveries are lost). -/
def setWake : List (Slot α) → Nat → List (Slot α)
  | [], _ => []
  | s :: rest, 0 => { s with wake := true } :: rest
  | s :: rest, i + 1 => s :: setWake rest i

/-- Modelled from the spec: external wake delivery to one slot of the Wake
Dispatch Table (§4.2): set that slot's pending-wake flag. -/
def Group.deliverWake (g : Group α) (i : Nat) : Group α :=
  { g with slots := setWake g.slots i }

/-- Deliver `k` successive wake signals to slot `i`. -/
def Group.deliverWakes (g : Group α) (i : Nat) : Nat → Group α
  | 0 => g
  | k + 1 => (g.deliverWake i).deliverWakes i k

/-- Modelled from the spec: cancellation of the entire Join Group (§5):
every slot receives a cancel request simultaneously — `Running` slots move to
`CancelRequested`, `Finished` slots whose output is unused drop immediately to
`Cancelled` (§4.3), terminal slots are unchanged. -/
def Group.cancelAll (g : Group α) : Group α :=
  { g with
    slots := g.slots.map fun s =>
      match s.state with
      | .running => { s with state := .cancelRequested }
      | .finished _ => { s with state := .cancelled }
      | _ => s }

/-- Wake delivery to one slot under the prompt executor: a non-terminal slot
has its pending-wake flag set; a terminal slot receives no wakes. -/
def wakeSlot (s : Slot α) : Slot α :=
  if s.state.isTerminal then s else { s with wake := true }

/-- Modelled from the spec: a prompt executor (§4.1 liveness contract, §6):
every non-terminal slot's re-armed wake is delivered before the next driver
step, i.e. its pending-wake flag is set. -/
def Group.promptWake (g : Group α) : Group α :=
  { g with slots := g.slots.map wakeSlot }

/-- One driver step under the prompt executor. -/
def Group.promptStep (g : Group α) : Group α × Option (GroupResult α) :=
  let r := g.promptWake.step
  (r.1, r.2.2)

/-- Iterate `promptStep` `k` times, keeping the group component. -/
def Group.promptIter (g : Group α) : Nat → Group α
  | 0 => g
  | k + 1 => (g.promptStep.1).promptIter k

/-- Run the group under the prompt executor until it yields a Group Result or
the fuel runs out. -/
def Group.promptRun : Group α → Nat → Option (GroupResult α)
  | _, 0 => none
  | g, fuel + 1 =>
    match g.promptStep with
    | (_, some r) => some r
    | (g1, none) => g1.promptRun fuel

/-- A freshly created slot: `Running`, counters zero, pending-wake flag set
(§4.2 initial state: the first driver pass polls everyone once). -/
def mkSlot (op : Operation α) : Slot α :=
  { op := op, readyPolls := 0, cancelPolls := 0, state := .running, wake := true }

/-- Modelled from the spec: construction of a Join Group from a policy, the
classification hook and the list of operations (§3, §4.2). -/
def mkGroup (pol : Policy) (isErr : α → Bool) (ops : List (Operation α)) : Group α :=
  { policy := pol, isError := isErr, slots := ops.map mkSlot, trigger := none }

/-! ## Proof-support definitions -/

/-- Indices of the slots a driver pass polls, starting from index `n`: the
slots whose pending-wake flag is set and whose state is pollable. -/
def polledOf (n : Nat) : List (Slot α) → List Nat
  | [] => []
  | s :: rest =>
    if s.wake && s.state.pollable then n :: polledOf (n + 1) rest else polledOf (n + 1) rest

/-- Action of one driver pass on a single slot, ignoring the trigger: a woken
slot has its flag cleared and is polled according to its state. -/
def passSlot (s : Slot α) : Slot α :=
  if s.wake then
    match s.state with
    | .running => Slot.pollReady { s with wake := false }
    | .cancelRequested => Slot.pollCancel { s with wake := false }
    | _ => { s with wake := false }
  else s

/-- Action of one prompt-executor driver step on a single slot. -/
def promptSlot (s : Slot α) : Slot α :=
  passSlot (wakeSlot s)

/-- Iterated per-slot prompt steps. -/
def promptSlotIter (s : Slot α) : Nat → Slot α
  | 0 => s
  | k + 1 => promptSlotIter (promptSlot s) k

/-- Remaining driver work for one slot under the prompt executor: the number
of polls until the slot reaches a terminal state. -/
def slotMeasure (s : Slot α) : Nat :=
  match s.state with
  | .running => s.op.readyAfter - s.readyPolls + 1
  | .cancelRequested => s.op.cancelAfter - s.cancelPolls + 1
  | _ => 0

/-- Remaining driver work for the whole group under the prompt executor. -/
def Group.measure (g : Group α) : Nat :=
  (g.slots.map slotMeasure).sum

/-- A group none of whose slots can ever fire the completion trigger, with no
trigger pending. -/
def TriggerFree (g : Group α) : Prop :=
  g.trigger = none ∧ ∀ s ∈ g.slots, g.policy.triggersOn g.isError s.op.output = false

/-- A slot that has never been cancelled: it is still running, or finished
with its own operation's output. -/
def NaturalSlot (s : Slot α) : Prop :=
  s.state = .running ∨ s.state = .finished s.op.output

/-- Invariant of a zip run started from `mkGroup`: the policy is zip, no
trigger is pending, the operations are unchanged and every slot completes
naturally. -/
def ZipInv (ops : List (Operation α)) (g : Group α) : Prop :=
  g.policy = .zip ∧ g.trigger = none ∧ g.slots.map Slot.op = ops ∧ ∀ s ∈ g.slots, NaturalSlot s

/-- Invariant of a race_ok run in which every operation's output classifies as
an error: no success can ever arrive, so no trigger fires and every slot is
driven to natural completion. -/
def RaceOkErrInv (ops : List (Operation α)) (g : Group α) : Prop :=
  g.policy = .raceOk ∧ g.trigger = none ∧ g.slots.map Slot.op = ops ∧
    (∀ s ∈ g.slots, g.isError s.op.output = true) ∧ ∀ s ∈ g.slots, NaturalSlot s

/-- Whether a driver pass reaching this slot fires the completion trigger:
the slot is woken, running, its operation is about to report Done, and the
policy treats its output as a completion trigger (§4.4 step 2). -/
def slotFires (pol : Policy) (isErr : α → Bool) (s : Slot α) : Bool :=
  s.wake && (match s.state with
    | SlotState.running =>
      decide (s.op.readyAfter ≤ s.readyPolls) && pol.triggersOn isErr s.op.output
    | _ => false)

/-- The trigger set by one driver pass starting with no pending trigger: the
lowest-index firing slot with its output (§4.4 step 2: indices in increasing
order; §4.5: ties broken by lowest index). -/
def firstFire (pol : Policy) (isErr : α → Bool) : Nat → List (Slot α) → Option (Nat × α)
  | _, [] => none
  | n, s :: rest =>
    if slotFires pol isErr s then some (n, s.op.output) else firstFire pol isErr (n + 1) rest

/-- The trigger pending after one prompt-executor step. -/
def Group.promptTrigger (g : Group α) : Option (Nat × α) :=
  match g.trigger with
  | some t => some t
  | none => firstFire g.policy g.isError 0 (g.slots.map wakeSlot)

/-- The slots after one prompt-executor step: each polled independently, and
still-running slots cancel-requested when a trigger is pending (§4.4 step 3). -/
def Group.promptSlots (g : Group α) : List (Slot α) :=
  if (g.promptTrigger).isSome then cancelRunning (g.slots.map promptSlot)
  else g.slots.map promptSlot

/-- The Group Result shape produced once the trigger with output `out` has
fired and all slots are terminal (§4.5): `try_zip` reports the first error,
`race`/`race_ok` the winning output; `zip` never fires a trigger. -/
def triggeredResult (pol : Policy) (out : α) : GroupResult α :=
  match pol with
  | .tryZip => .firstError out
  | _ => .winner out

/-- Slot shape after `k` prompt steps with no trigger yet: still running with
`k` ready polls, or finished at its natural step. -/
def slotPhaseA (k : Nat) (op : Operation α) : Slot α :=
  if k ≤ op.readyAfter then Slot.mk op k 0 .running (decide (k = 0))
  else Slot.mk op op.readyAfter 0 (.finished op.output) false

/-- Slot shape `m` prompt steps after the trigger fired at step `E + 1`:
finished naturally (readyAfter ≤ E), or cancel-requested and draining, or
cancelled once its cancel handshake completed. -/
def slotPhaseC (E m : Nat) (op : Operation α) : Slot α :=
  if op.readyAfter ≤ E then Slot.mk op op.readyAfter 0 (.finished op.output) false
  else if m ≤ op.cancelAfter then Slot.mk op (E + 1) m .cancelRequested false
  else Slot.mk op (E + 1) op.cancelAfter .cancelled false

/-- Group state after `k` pre-trigger prompt steps. -/
def phaseAGroup (pol : Policy) (isErr : α → Bool) (ops : List (Operation α)) (k : Nat) :
    Group α :=
  Group.mk pol isErr (ops.map (slotPhaseA k)) none

/-- Group state `m` prompt steps after the trigger `(i, out)` fired at step
`E + 1`. -/
def phaseCGroup (pol : Policy) (isErr : α → Bool) (ops : List (Operation α)) (i : Nat)
    (out : α) (E m : Nat) : Group α :=
  Group.mk pol isErr (ops.map (slotPhaseC E m)) (some (i, out))

/-- Largest cancel delay among a list of operations. -/
def maxCancel (ops : List (Operation α)) : Nat :=
  (ops.map fun op => op.cancelAfter).foldr max 0

/-- Concrete group whose slot 0 is already terminal (Finished): spurious
wakes delivered to it are drained from the Wake Dispatch Table without any
poll. -/
def wakeTermGroup : Group Nat :=
  Group.mk .zip (fun _ => false)
    [Slot.mk ⟨0, 5, 0⟩ 0 0 (.finished 5) false, Slot.mk ⟨1, 6, 0⟩ 0 0 .running true]
    none

/-- Concrete group whose slot 0 is mid-cancellation (CancelRequested) and
slot 1 running, exercising wake coalescing on a cancel-polled slot. -/
def wakeDemoGroup : Group Nat :=
  Group.mk .race (fun _ => false)
    [Slot.mk ⟨0, 5, 2⟩ 0 0 .cancelRequested false, Slot.mk ⟨1, 6, 0⟩ 0 0 .running true]
    none

/-! ## Lemmas: polling a single slot -/

theorem Slot.pollReady_of_lt {s : Slot α} (h : s.readyPolls < s.op.readyAfter) :
    s.pollReady = { s with readyPolls := s.readyPolls + 1 } := by
  simp [Slot.pollReady, h]

theorem Slot.pollReady_of_ge {s : Slot α} (h : s.op.readyAfter ≤ s.readyPolls) :
    s.pollReady = { s with state := .finished s.op.output } := by
  simp [Slot.pollReady, Nat.not_lt.mpr h]

theorem Slot.pollCancel_of_lt {s : Slot α} (h : s.cancelPolls < s.op.cancelAfter) :
    s.pollCancel = { s with cancelPolls := s.cancelPolls + 1 } := by
  simp [Slot.pollCancel, h]

theorem Slot.pollCancel_of_ge {s : Slot α} (h : s.op.cancelAfter ≤ s.cancelPolls) :
    s.pollCancel = { s with state := .cancelled } := by
  simp [Slot.pollCancel, Nat.not_lt.mpr h]

theorem Slot.op_pollReady (s : Slot α) : s.pollReady.op = s.op := by
  unfold Slot.pollReady; split <;> rfl

theorem Slot.op_pollCancel (s : Slot α) : s.pollCancel.op = s.op := by
  unfold Slot.pollCancel; split <;> rfl

theorem passSlot_op (s : Slot α) : (passSlot s).op = s.op := by
  unfold passSlot
  split
  · cases hs : s.state <;> simp [hs, Slot.op_pollReady, Slot.op_pollCancel]
  · rfl

theorem wakeSlot_op (s : Slot α) : (wakeSlot s).op = s.op := by
  unfold wakeSlot; split <;> rfl

theorem promptSlot_op (s : Slot α) : (promptSlot s).op = s.op := by
  simp [promptSlot, passSlot_op, wakeSlot_op]

/-! ## Lemmas: the polled-index list -/

theorem polledOf_ge : ∀ (slots : List (Slot α)) (n j : Nat), j ∈ polledOf n slots → n ≤ j := by
  intro slots
  induction slots with
  | nil => intro n j h; simp [polledOf] at h
  | cons s rest ih =>
    intro n j h
    by_cases hc : s.wake && s.state.pollable
    · simp only [polledOf, if_pos hc, List.mem_cons] at h
      rcases h with rfl | h2
      · omega
      · have := ih (n + 1) j h2; omega
    · simp only [polledOf, if_neg hc] at h
      have := ih (n + 1) j h; omega

theorem polledOf_count : ∀ (slots : List (Slot α)) (n k : Nat),
    (polledOf n slots).count (n + k) =
      (match slots[k]? with
       | some s => if s.wake && s.state.pollable then 1 else 0
       | none => 0) := by
  intro slots
  induction slots with
  | nil => intro n k; simp [polledOf]
  | cons s rest ih =>
    intro n k
    by_cases hc : s.wake && s.state.pollable
    · simp only [polledOf, if_pos hc]
      cases k with
      | zero =>
        have hnot : (n : Nat) ∉ polledOf (n + 1) rest := by
          intro hmem
          have := polledOf_ge rest (n + 1) n hmem
          omega
        simp [List.count_cons, List.count_eq_zero.mpr hnot, hc]
      | succ k =>
        have : n + (k + 1) = (n + 1) + k := by omega
        rw [this]
        have hne : ((n + 1) + k) ≠ n := by omega
        simp [List.count_cons, ih (n + 1) k, hne]
    · simp only [polledOf, if_neg hc]
      cases k with
      | zero =>
        have hnot : (n : Nat) ∉ polledOf (n + 1) rest := by
          intro hmem
          have := polledOf_ge rest (n + 1) n hmem
          omega
        simp [hc, List.count_eq_zero.mpr hnot]
      | succ k =>
        have : n + (k + 1) = (n + 1) + k := by omega
        rw [this]
        simp [ih (n + 1) k]

theorem polledOf_mem_imp : ∀ (slots : List (Slot α)) (n j : Nat), j ∈ polledOf n slots →
    ∃ s, slots[j - n]? = some s ∧ s.wake = true ∧ s.state.pollable = true := by
  intro slots
  induction slots with
  | nil => intro n j h; simp [polledOf] at h
  | cons s rest ih =>
    intro n j h
    by_cases hc : s.wake && s.state.pollable
    · simp only [polledOf, if_pos hc, List.mem_cons] at h
      rcases h with rfl | h2
      · have hc' : s.wake = true ∧ s.state.pollable = true := by
          simpa [Bool.and_eq_true] using hc
        refine ⟨s, ?_, hc'.1, hc'.2⟩
        simp
      · have hge := polledOf_ge rest (n + 1) j h2
        rcases ih (n + 1) j h2 with ⟨t, ht, hw, hp⟩
        refine ⟨t, ?_, hw, hp⟩
        have : j - n = (j - (n + 1)) + 1 := by omega
        rw [this]
        simpa using ht
    · simp only [polledOf, if_neg hc] at h
      have hge := polledOf_ge rest (n + 1) j h
      rcases ih (n + 1) j h with ⟨t, ht, hw, hp⟩
      refine ⟨t, ?_, hw, hp⟩
      have : j - n = (j - (n + 1)) + 1 := by omega
      rw [this]
      simpa using ht

/-! ## Lemmas: wake delivery -/

theorem setWake_setWake : ∀ (l : List (Slot α)) (i : Nat), setWake (setWake l i) i = setWake l i := by
  intro l
  induction l with
  | nil => intro i; rfl
  | cons s rest ih =>
    intro i
    cases i with
    | zero => rfl
    | succ i => simp [setWake, ih i]

theorem setWake_getElem? : ∀ (l : List (Slot α)) (i : Nat) (s : Slot α),
    l[i]? = some s → (setWake l i)[i]? = some { s with wake := true } := by
  intro l
  induction l with
  | nil => intro i s h; simp at h
  | cons t rest ih =>
    intro i s h
    cases i with
    | zero => simp at h; subst h; simp [setWake]
    | succ i =>
      simp only [List.getElem?_cons_succ] at h
      simpa [setWake] using ih i s h

theorem Group.deliverWake_idem (g : Group α) (i : Nat) :
    (g.deliverWake i).deliverWake i = g.deliverWake i := by
  simp [Group.deliverWake, setWake_setWake]

theorem Group.deliverWakes_eq (g : Group α) (i : Nat) :
    ∀ K, 1 ≤ K → g.deliverWakes i K = g.deliverWake i := by
  intro K
  induction K generalizing g with
  | zero => intro h; omega
  | succ K ih =>
    intro _
    rw [Group.deliverWakes]
    rcases Nat.eq_zero_or_pos K with h0 | hpos
    · subst h0; rfl
    · rw [ih (g.deliverWake i) hpos, Group.deliverWake_idem]

/-! ## Lemmas: one driver pass -/

theorem drivePass_length (pol : Policy) (isErr : α → Bool) :
    ∀ (slots : List (Slot α)) (n : Nat) (trig : Option (Nat × α)),
      (drivePass pol isErr n trig slots).1.length = slots.length := by
  intro slots
  induction slots with
  | nil => intro n trig; rfl
  | cons s rest ih =>
    intro n trig
    by_cases hw : s.wake
    · cases hs : s.state <;> simp [drivePass, hw, hs, ih]
    · simp [drivePass, hw, ih]

theorem drivePass_polled (pol : Policy) (isErr : α → Bool) :
    ∀ (slots : List (Slot α)) (n : Nat) (trig : Option (Nat × α)),
      (drivePass pol isErr n trig slots).2.2 = polledOf n slots := by
  intro slots
  induction slots with
  | nil => intro n trig; rfl
  | cons s rest ih =>
    intro n trig
    by_cases hw : s.wake
    · cases hs : s.state <;>
        simp [drivePass, hw, hs, ih, polledOf, SlotState.pollable]
    · simp [drivePass, hw, ih, polledOf]

theorem drivePass_eq_map (pol : Policy) (isErr : α → Bool) :
    ∀ (slots : List (Slot α)),
      (∀ s ∈ slots, s.state = .running → s.wake = true →
        s.op.readyAfter ≤ s.readyPolls → pol.triggersOn isErr s.op.output = false) →
      ∀ (n : Nat) (trig : Option (Nat × α)),
        drivePass pol isErr n trig slots = (slots.map passSlot, trig, polledOf n slots) := by
  intro slots
  induction slots with
  | nil => intro _ n trig; rfl
  | cons s rest ih =>
    intro H n trig
    have Hrest : ∀ s' ∈ rest, s'.state = .running → s'.wake = true →
        s'.op.readyAfter ≤ s'.readyPolls → pol.triggersOn isErr s'.op.output = false :=
      fun s' hm => H s' (List.mem_cons_of_mem _ hm)
    by_cases hw : s.wake
    · cases hs : s.state with
      | running =>
        by_cases hlt : s.readyPolls < s.op.readyAfter
        · simp [drivePass, hw, hs, Slot.pollReady, hlt, ih Hrest, passSlot, polledOf,
            SlotState.pollable]
        · have htf := H s (List.mem_cons_self s rest) hs hw (Nat.le_of_not_lt hlt)
          simp [drivePass, hw, hs, Slot.pollReady, hlt, htf, ih Hrest, passSlot, polledOf,
            SlotState.pollable]
      | finished out =>
        simp [drivePass, hw, hs, ih Hrest, passSlot, polledOf, SlotState.pollable]
      | cancelRequested =>
        simp [drivePass, hw, hs, ih Hrest, passSlot, polledOf, SlotState.pollable]
      | cancelled =>
        simp [drivePass, hw, hs, ih Hrest, passSlot, polledOf, SlotState.pollable]
    · simp [drivePass, hw, ih Hrest, passSlot, polledOf]

/-! ## Lemmas: a full driver step -/

theorem allTerminal_iff (slots : List (Slot α)) :
    allTerminal slots = true ↔ ∀ s ∈ slots, s.state.isTerminal = true := by
  simp [allTerminal, List.all_eq_true]

theorem cancelRunning_length (slots : List (Slot α)) :
    (cancelRunning slots).length = slots.length := by
  simp [cancelRunning]

theorem cancelRunning_id (slots : List (Slot α)) (h : ∀ s ∈ slots, s.state ≠ .running) :
    cancelRunning slots = slots := by
  induction slots with
  | nil => rfl
  | cons s rest ih =>
    have hs := h s (List.mem_cons_self s rest)
    have hhead : (match s.state with
        | SlotState.running => { s with state := .cancelRequested }
        | _ => s) = s := by
      cases hst : s.state
      · exact absurd hst hs
      all_goals rfl
    simp only [cancelRunning, List.map_cons] at ih ⊢
    rw [ih fun t htm => h t (List.mem_cons_of_mem _ htm)]

theorem Group.step_fst (g : Group α) :
    g.step.1 = { g with
      slots := if (drivePass g.policy g.isError 0 g.trigger g.slots).2.1.isSome
        then cancelRunning (drivePass g.policy g.isError 0 g.trigger g.slots).1
        else (drivePass g.policy g.isError 0 g.trigger g.slots).1,
      trigger := (drivePass g.policy g.isError 0 g.trigger g.slots).2.1 } := rfl

theorem Group.step_polled (g : Group α) : g.step.2.1 = polledOf 0 g.slots :=
  drivePass_polled g.policy g.isError g.slots 0 g.trigger

theorem Group.step_res (g : Group α) :
    g.step.2.2 = if allTerminal g.step.1.slots then g.step.1.result else none := rfl

theorem Group.step_length (g : Group α) : g.step.1.slots.length = g.slots.length := by
  rw [Group.step_fst]
  dsimp only
  split
  · rw [cancelRunning_length, drivePass_length]
  · rw [drivePass_length]

/-! ## Lemmas: prompt-executor steps -/

theorem map_promptSlot (slots : List (Slot α)) :
    (slots.map wakeSlot).map passSlot = slots.map promptSlot := by
  rw [List.map_map]; rfl

theorem Group.promptStep_eq (g : Group α) (ht : g.trigger = none)
    (H : ∀ s ∈ g.slots, s.state = .running → s.op.readyAfter ≤ s.readyPolls →
      g.policy.triggersOn g.isError s.op.output = false) :
    g.promptStep = ({ g with slots := g.slots.map promptSlot },
      if allTerminal (g.slots.map promptSlot) then
        Group.result { g with slots := g.slots.map promptSlot } else none) := by
  obtain ⟨pol, isErr, slots, trig⟩ := g
  simp only at ht H
  subst ht
  have H2 : ∀ s ∈ slots.map wakeSlot, s.state = .running → s.wake = true →
      s.op.readyAfter ≤ s.readyPolls → pol.triggersOn isErr s.op.output = false := by
    intro s' hm hrun _ hge
    rcases List.mem_map.mp hm with ⟨s, hs, rfl⟩
    by_cases hterm : s.state.isTerminal
    · simp only [wakeSlot, if_pos hterm] at hrun hge ⊢
      exact H s hs hrun hge
    · simp only [wakeSlot, if_neg hterm] at hrun hge ⊢
      exact H s hs hrun hge
  simp only [Group.promptStep, Group.promptWake, Group.step]
  rw [drivePass_eq_map pol isErr _ H2, map_promptSlot]
  rfl

theorem Group.promptStep_fst (g : Group α) (ht : g.trigger = none)
    (H : ∀ s ∈ g.slots, s.state = .running → s.op.readyAfter ≤ s.readyPolls →
      g.policy.triggersOn g.isError s.op.output = false) :
    g.promptStep.1 = { g with slots := g.slots.map promptSlot } := by
  rw [Group.promptStep_eq g ht H]

theorem Group.promptRun_succ (g : Group α) (fuel : Nat) :
    g.promptRun (fuel + 1) =
      match g.promptStep.2 with
      | some r => some r
      | none => g.promptStep.1.promptRun fuel := by
  simp only [Group.promptRun]
  rcases h : g.promptStep with ⟨g1, r⟩
  cases r <;> simp

theorem Group.promptIter_succ (g : Group α) (k : Nat) :
    g.promptIter (k + 1) = (g.promptStep.1).promptIter k := rfl

/-! ## Lemmas: per-slot prompt evolution and the termination measure -/

theorem promptSlot_state_of_terminal {s : Slot α} (h : s.state.isTerminal = true) :
    (promptSlot s).state = s.state := by
  cases hs : s.state with
  | running => rw [hs] at h; simp [SlotState.isTerminal] at h
  | cancelRequested => rw [hs] at h; simp [SlotState.isTerminal] at h
  | finished out =>
    simp only [promptSlot, wakeSlot, passSlot, hs, SlotState.isTerminal, if_true]
    split <;> simp [hs]
  | cancelled =>
    simp only [promptSlot, wakeSlot, passSlot, hs, SlotState.isTerminal, if_true]
    split <;> simp [hs]

theorem promptSlot_running {s : Slot α} (hs : s.state = .running) :
    promptSlot s = Slot.pollReady { s with wake := false } := by
  simp only [promptSlot, wakeSlot, passSlot, hs, SlotState.isTerminal]
  rfl

theorem promptSlot_cancelRequested {s : Slot α} (hs : s.state = .cancelRequested) :
    promptSlot s = Slot.pollCancel { s with wake := false } := by
  simp only [promptSlot, wakeSlot, passSlot, hs, SlotState.isTerminal]
  rfl

theorem slotMeasure_promptSlot_le (s : Slot α) : slotMeasure (promptSlot s) ≤ slotMeasure s := by
  cases hs : s.state with
  | running =>
    rw [promptSlot_running hs]
    by_cases hlt : s.readyPolls < s.op.readyAfter
    · rw [Slot.pollReady_of_lt (s := { s with wake := false }) hlt]
      simp [slotMeasure, hs]
      omega
    · rw [Slot.pollReady_of_ge (s := { s with wake := false }) (Nat.le_of_not_lt hlt)]
      simp [slotMeasure, hs]
  | cancelRequested =>
    rw [promptSlot_cancelRequested hs]
    by_cases hlt : s.cancelPolls < s.op.cancelAfter
    · rw [Slot.pollCancel_of_lt (s := { s with wake := false }) hlt]
      simp [slotMeasure, hs]
      omega
    · rw [Slot.pollCancel_of_ge (s := { s with wake := false }) (Nat.le_of_not_lt hlt)]
      simp [slotMeasure, hs]
  | finished out =>
    have hterm : s.state.isTerminal = true := by rw [hs]; rfl
    simp [slotMeasure, promptSlot_state_of_terminal hterm, hs]
  | cancelled =>
    have hterm : s.state.isTerminal = true := by rw [hs]; rfl
    simp [slotMeasure, promptSlot_state_of_terminal hterm, hs]

theorem slotMeasure_promptSlot_lt (s : Slot α) (h : s.state.isTerminal = false) :
    slotMeasure (promptSlot s) < slotMeasure s := by
  cases hs : s.state with
  | running =>
    rw [promptSlot_running hs]
    by_cases hlt : s.readyPolls < s.op.readyAfter
    · rw [Slot.pollReady_of_lt (s := { s with wake := false }) hlt]
      simp [slotMeasure, hs]
      omega
    · rw [Slot.pollReady_of_ge (s := { s with wake := false }) (Nat.le_of_not_lt hlt)]
      simp [slotMeasure, hs]
  | cancelRequested =>
    rw [promptSlot_cancelRequested hs]
    by_cases hlt : s.cancelPolls < s.op.cancelAfter
    · rw [Slot.pollCancel_of_lt (s := { s with wake := false }) hlt]
      simp [slotMeasure, hs]
      omega
    · rw [Slot.pollCancel_of_ge (s := { s with wake := false }) (Nat.le_of_not_lt hlt)]
      simp [slotMeasure, hs]
  | finished out => rw [hs] at h; simp [SlotState.isTerminal] at h
  | cancelled => rw [hs] at h; simp [SlotState.isTerminal] at h

theorem measure_map_promptSlot_le (slots : List (Slot α)) :
    ((slots.map promptSlot).map slotMeasure).sum ≤ (slots.map slotMeasure).sum := by
  induction slots with
  | nil => simp
  | cons s rest ih =>
    have := slotMeasure_promptSlot_le s
    simp only [List.map_cons, List.sum_cons]
    omega

theorem measure_map_promptSlot_lt (slots : List (Slot α))
    (h : ∃ s ∈ slots, s.state.isTerminal = false) :
    ((slots.map promptSlot).map slotMeasure).sum < (slots.map slotMeasure).sum := by
  induction slots with
  | nil => rcases h with ⟨s, hs, _⟩; cases hs
  | cons s rest ih =>
    rcases h with ⟨t, ht, hterm⟩
    rcases List.mem_cons.mp ht with rfl | htr
    · have h1 := slotMeasure_promptSlot_lt t hterm
      have h2 := measure_map_promptSlot_le rest
      simp only [List.map_cons, List.sum_cons]
      omega
    · have h1 := slotMeasure_promptSlot_le s
      have h2 := ih ⟨t, htr, hterm⟩
      simp only [List.map_cons, List.sum_cons]
      omega

/-! ## Trigger-free groups: zip always, race_ok while no success arrives -/

theorem TriggerFree.promptStep {g : Group α} (h : TriggerFree g) :
    TriggerFree g.promptStep.1 := by
  have H : ∀ s ∈ g.slots, s.state = .running → s.op.readyAfter ≤ s.readyPolls →
      g.policy.triggersOn g.isError s.op.output = false := fun s hs _ _ => h.2 s hs
  rw [Group.promptStep_fst g h.1 H]
  constructor
  · exact h.1
  · intro s' hm
    rcases List.mem_map.mp hm with ⟨s, hs, rfl⟩
    simpa [promptSlot_op] using h.2 s hs

theorem result_isSome_of (g : Group α) (hpol : g.policy = .zip ∨ g.policy = .raceOk)
    (ht : g.trigger = none) : ∃ r, g.result = some r := by
  rcases hpol with h | h <;> simp [Group.result, h, ht]

theorem promptRun_total : ∀ (fuel : Nat) (g : Group α), TriggerFree g →
    (g.policy = .zip ∨ g.policy = .raceOk) → g.measure < fuel →
    ∃ r, g.promptRun fuel = some r := by
  intro fuel
  induction fuel with
  | zero => intro g _ _ h; omega
  | succ fuel ih =>
    intro g hTF hpol hlt
    rw [Group.promptRun_succ]
    have H : ∀ s ∈ g.slots, s.state = .running → s.op.readyAfter ≤ s.readyPolls →
        g.policy.triggersOn g.isError s.op.output = false := fun s hs _ _ => hTF.2 s hs
    have he := Group.promptStep_eq g hTF.1 H
    cases hr : g.promptStep.2 with
    | some r => exact ⟨r, rfl⟩
    | none =>
      have hsnd : g.promptStep.2 =
          if allTerminal (g.slots.map promptSlot) then
            Group.result { g with slots := g.slots.map promptSlot } else none := by
        rw [he]
      have hat : allTerminal (g.slots.map promptSlot) = false := by
        by_contra hC
        have hT : allTerminal (g.slots.map promptSlot) = true := by
          revert hC
          cases allTerminal (g.slots.map promptSlot) <;> simp
        rcases result_isSome_of { g with slots := g.slots.map promptSlot }
            (by simpa using hpol) (by simpa using hTF.1) with ⟨r0, hr0⟩
        rw [hsnd, if_pos hT, hr0] at hr
        cases hr
      have hex : ∃ s ∈ g.slots, s.state.isTerminal = false := by
        have hnall : ¬ ∀ s ∈ g.slots.map promptSlot, s.state.isTerminal = true := by
          intro hall
          rw [(allTerminal_iff _).mpr hall] at hat
          cases hat
        push_neg at hnall
        rcases hnall with ⟨s', hm, hns⟩
        rcases List.mem_map.mp hm with ⟨s, hs, rfl⟩
        refine ⟨s, hs, ?_⟩
        by_contra hC
        have hterm : s.state.isTerminal = true := by
          revert hC
          cases s.state.isTerminal <;> simp
        rw [promptSlot_state_of_terminal hterm] at hns
        exact hns hterm
      have hfst : g.promptStep.1 = { g with slots := g.slots.map promptSlot } := by rw [he]
      have hm1 : (g.promptStep.1).measure < g.measure := by
        rw [hfst]
        exact measure_map_promptSlot_lt g.slots hex
      have hTF1 : TriggerFree g.promptStep.1 := hTF.promptStep
      have hpol1 : (g.promptStep.1).policy = .zip ∨ (g.promptStep.1).policy = .raceOk := by
        rw [hfst]
        simpa using hpol
      exact ih (g.promptStep.1) hTF1 hpol1 (by omega)

/-! ## Natural completion: slots that are only ever polled ready -/

theorem naturalSlot_mkSlot (op : Operation α) : NaturalSlot (mkSlot op) :=
  Or.inl rfl

theorem naturalSlot_promptSlot {s : Slot α} (h : NaturalSlot s) : NaturalSlot (promptSlot s) := by
  rcases h with hr | hf
  · rw [promptSlot_running hr]
    by_cases hlt : s.readyPolls < s.op.readyAfter
    · rw [Slot.pollReady_of_lt (s := { s with wake := false }) hlt]
      left
      exact hr
    · rw [Slot.pollReady_of_ge (s := { s with wake := false }) (Nat.le_of_not_lt hlt)]
      right
      rfl
  · have hterm : s.state.isTerminal = true := by rw [hf]; rfl
    right
    rw [promptSlot_state_of_terminal hterm, promptSlot_op]
    exact hf

theorem finishedOutputs_eq (slots : List (Slot α))
    (hterm : ∀ s ∈ slots, s.state.isTerminal = true)
    (hnat : ∀ s ∈ slots, NaturalSlot s) :
    finishedOutputs slots = slots.map fun s => s.op.output := by
  induction slots with
  | nil => rfl
  | cons s rest ih =>
    have h1 := hterm s (List.mem_cons_self s rest)
    have h2 := hnat s (List.mem_cons_self s rest)
    have hf : s.state = .finished s.op.output := by
      rcases h2 with hr | hf
      · rw [hr] at h1; simp [SlotState.isTerminal] at h1
      · exact hf
    have ih' := ih (fun t htm => hterm t (List.mem_cons_of_mem _ htm))
      (fun t htm => hnat t (List.mem_cons_of_mem _ htm))
    simp only [finishedOutputs, List.filterMap_cons, hf, SlotState.getOutput, List.map_cons]
    simpa [finishedOutputs] using ih'

/-! ## The zip invariant (C4 machinery) -/

theorem zipInv_mkGroup (isErr : α → Bool) (ops : List (Operation α)) :
    ZipInv ops (mkGroup .zip isErr ops) := by
  refine ⟨rfl, rfl, ?_, ?_⟩
  · show (ops.map mkSlot).map Slot.op = ops
    rw [List.map_map]
    rw [show (Slot.op ∘ mkSlot : Operation α → Operation α) = id from rfl, List.map_id]
  · intro s hm
    rcases List.mem_map.mp hm with ⟨op, _, rfl⟩
    exact naturalSlot_mkSlot op

theorem zipInv_triggerFree {ops : List (Operation α)} {g : Group α} (h : ZipInv ops g) :
    TriggerFree g :=
  ⟨h.2.1, fun s _ => by rw [h.1]; rfl⟩

theorem zipInv_promptStep {ops : List (Operation α)} {g : Group α} (h : ZipInv ops g) :
    ZipInv ops g.promptStep.1 := by
  have hfst := Group.promptStep_fst g h.2.1 (fun s hs _ _ => by rw [h.1]; rfl)
  rw [hfst]
  refine ⟨h.1, h.2.1, ?_, ?_⟩
  · calc (g.slots.map promptSlot).map Slot.op
        = g.slots.map fun s => (promptSlot s).op := by rw [List.map_map]; rfl
      _ = g.slots.map Slot.op := List.map_congr_left fun s _ => promptSlot_op s
      _ = ops := h.2.2.1
  · intro s' hm
    rcases List.mem_map.mp hm with ⟨s, hs, rfl⟩
    exact naturalSlot_promptSlot (h.2.2.2 s hs)

theorem zip_step_result {ops : List (Operation α)} {g : Group α} (h : ZipInv ops g)
    {r : GroupResult α} (hr : g.promptStep.2 = some r) :
    r = .allOutputs (ops.map Operation.output) := by
  have he := Group.promptStep_eq g h.2.1 (fun s hs _ _ => by rw [h.1]; rfl)
  have hsnd : g.promptStep.2 =
      if allTerminal (g.slots.map promptSlot) then
        Group.result { g with slots := g.slots.map promptSlot } else none := by rw [he]
  rw [hsnd] at hr
  split at hr
  case isTrue hT =>
    have hterm := (allTerminal_iff _).mp hT
    have hnat : ∀ s ∈ g.slots.map promptSlot, NaturalSlot s := by
      intro s' hm
      rcases List.mem_map.mp hm with ⟨s, hs, rfl⟩
      exact naturalSlot_promptSlot (h.2.2.2 s hs)
    have hres : Group.result { g with slots := g.slots.map promptSlot } =
        some (.allOutputs (finishedOutputs (g.slots.map promptSlot))) := by
      simp [Group.result, h.1]
    rw [hres] at hr
    have hout : finishedOutputs (g.slots.map promptSlot) = ops.map Operation.output := by
      rw [finishedOutputs_eq _ hterm hnat]
      calc (g.slots.map promptSlot).map (fun s => s.op.output)
          = g.slots.map fun s => (promptSlot s).op.output := by rw [List.map_map]; rfl
        _ = g.slots.map fun s => s.op.output := List.map_congr_left fun s _ => by
            rw [promptSlot_op]
        _ = ops.map Operation.output := by
            rw [show (g.slots.map fun s => s.op.output) = (g.slots.map Slot.op).map Operation.output
              from by rw [List.map_map]; rfl, h.2.2.1]
    rw [hout] at hr
    exact (Option.some_injective _ hr).symm
  case isFalse => cases hr

theorem zip_run_eq {ops : List (Operation α)} :
    ∀ (fuel : Nat) (g : Group α), ZipInv ops g → ∀ r, g.promptRun fuel = some r →
      r = .allOutputs (ops.map Operation.output) := by
  intro fuel
  induction fuel with
  | zero => intro g _ r hr; cases hr
  | succ fuel ih =>
    intro g h r hr
    rw [Group.promptRun_succ] at hr
    cases hs : g.promptStep.2 with
    | some r0 =>
      rw [hs] at hr
      simp only [] at hr
      cases hr
      exact zip_step_result h hs
    | none =>
      rw [hs] at hr
      simp only [] at hr
      exact ih (g.promptStep.1) (zipInv_promptStep h) r hr

/-! ## The race_ok all-errors invariant (C7 machinery) -/

theorem raceOkErrInv_mkGroup (isErr : α → Bool) (ops : List (Operation α))
    (herr : ∀ op ∈ ops, isErr op.output = true) :
    RaceOkErrInv ops (mkGroup .raceOk isErr ops) := by
  refine ⟨rfl, rfl, ?_, ?_, ?_⟩
  · show (ops.map mkSlot).map Slot.op = ops
    rw [List.map_map]
    rw [show (Slot.op ∘ mkSlot : Operation α → Operation α) = id from rfl, List.map_id]
  · intro s hm
    rcases List.mem_map.mp hm with ⟨op, hop, rfl⟩
    exact herr op hop
  · intro s hm
    rcases List.mem_map.mp hm with ⟨op, _, rfl⟩
    exact naturalSlot_mkSlot op

theorem raceOkErrInv_triggerFree {ops : List (Operation α)} {g : Group α}
    (h : RaceOkErrInv ops g) : TriggerFree g := by
  refine ⟨h.2.1, fun s hs => ?_⟩
  rw [h.1]
  simp [Policy.triggersOn, h.2.2.2.1 s hs]

theorem raceOkErrInv_promptStep {ops : List (Operation α)} {g : Group α}
    (h : RaceOkErrInv ops g) : RaceOkErrInv ops g.promptStep.1 := by
  have hfst := Group.promptStep_fst g h.2.1
    (fun s hs _ _ => (raceOkErrInv_triggerFree h).2 s hs)
  rw [hfst]
  refine ⟨h.1, h.2.1, ?_, ?_, ?_⟩
  · calc (g.slots.map promptSlot).map Slot.op
        = g.slots.map fun s => (promptSlot s).op := by rw [List.map_map]; rfl
      _ = g.slots.map Slot.op := List.map_congr_left fun s _ => promptSlot_op s
      _ = ops := h.2.2.1
  · intro s' hm
    rcases List.mem_map.mp hm with ⟨s, hs, rfl⟩
    show g.isError (promptSlot s).op.output = true
    rw [promptSlot_op]
    exact h.2.2.2.1 s hs
  · intro s' hm
    rcases List.mem_map.mp hm with ⟨s, hs, rfl⟩
    exact naturalSlot_promptSlot (h.2.2.2.2 s hs)

theorem raceOkErr_step_result {ops : List (Operation α)} {g : Group α} (h : RaceOkErrInv ops g)
    {r : GroupResult α} (hr : g.promptStep.2 = some r) :
    r = .allErrors (ops.map Operation.output) := by
  have he := Group.promptStep_eq g h.2.1
    (fun s hs _ _ => (raceOkErrInv_triggerFree h).2 s hs)
  have hsnd : g.promptStep.2 =
      if allTerminal (g.slots.map promptSlot) then
        Group.result { g with slots := g.slots.map promptSlot } else none := by rw [he]
  rw [hsnd] at hr
  split at hr
  case isTrue hT =>
    have hterm := (allTerminal_iff _).mp hT
    have hnat : ∀ s ∈ g.slots.map promptSlot, NaturalSlot s := by
      intro s' hm
      rcases List.mem_map.mp hm with ⟨s, hs, rfl⟩
      exact naturalSlot_promptSlot (h.2.2.2.2 s hs)
    have hres : Group.result { g with slots := g.slots.map promptSlot } =
        some (.allErrors (finishedOutputs (g.slots.map promptSlot))) := by
      simp [Group.result, h.1, h.2.1]
    rw [hres] at hr
    have hout : finishedOutputs (g.slots.map promptSlot) = ops.map Operation.output := by
      rw [finishedOutputs_eq _ hterm hnat]
      calc (g.slots.map promptSlot).map (fun s => s.op.output)
          = g.slots.map fun s => (promptSlot s).op.output := by rw [List.map_map]; rfl
        _ = g.slots.map fun s => s.op.output := List.map_congr_left fun s _ => by
            rw [promptSlot_op]
        _ = ops.map Operation.output := by
            rw [show (g.slots.map fun s => s.op.output) = (g.slots.map Slot.op).map Operation.output
              from by rw [List.map_map]; rfl, h.2.2.1]
    rw [hout] at hr
    exact (Option.some_injective _ hr).symm
  case isFalse => cases hr

theorem raceOkErr_run_eq {ops : List (Operation α)} :
    ∀ (fuel : Nat) (g : Group α), RaceOkErrInv ops g → ∀ r, g.promptRun fuel = some r →
      r = .allErrors (ops.map Operation.output) := by
  intro fuel
  induction fuel with
  | zero => intro g _ r hr; cases hr
  | succ fuel ih =>
    intro g h r hr
    rw [Group.promptRun_succ] at hr
    cases hs : g.promptStep.2 with
    | some r0 =>
      rw [hs] at hr
      simp only [] at hr
      cases hr
      exact raceOkErr_step_result h hs
    | none =>
      rw [hs] at hr
      simp only [] at hr
      exact ih (g.promptStep.1) (raceOkErrInv_promptStep h) r hr

theorem raceOkErrInv_promptIter {ops : List (Operation α)} {g : Group α}
    (h : RaceOkErrInv ops g) : ∀ k, RaceOkErrInv ops (g.promptIter k) := by
  intro k
  induction k generalizing g with
  | zero => exact h
  | succ k ih =>
    rw [Group.promptIter_succ]
    exact ih (raceOkErrInv_promptStep h)

/-! ## Drained cancellation (C2 machinery) -/

theorem wakeSlot_state (s : Slot α) : (wakeSlot s).state = s.state := by
  unfold wakeSlot; split <;> rfl

theorem promptSlot_state_drain {s : Slot α}
    (h : s.state = .cancelRequested ∨ s.state = .cancelled) :
    (promptSlot s).state = .cancelRequested ∨ (promptSlot s).state = .cancelled := by
  rcases h with h | h
  · rw [promptSlot_cancelRequested h]
    by_cases hlt : s.cancelPolls < s.op.cancelAfter
    · rw [Slot.pollCancel_of_lt (s := { s with wake := false }) hlt]
      left
      exact h
    · rw [Slot.pollCancel_of_ge (s := { s with wake := false }) (Nat.le_of_not_lt hlt)]
      right
      rfl
  · right
    rw [promptSlot_state_of_terminal (by rw [h]; rfl)]
    exact h

theorem Group.promptStep_fst_drain (g : Group α)
    (hcr : ∀ s ∈ g.slots, s.state = .cancelRequested ∨ s.state = .cancelled) :
    g.promptStep.1 = { g with slots := g.slots.map promptSlot } := by
  obtain ⟨pol, isErr, slots, trig⟩ := g
  simp only at hcr
  have H2 : ∀ s ∈ slots.map wakeSlot, s.state = .running → s.wake = true →
      s.op.readyAfter ≤ s.readyPolls → pol.triggersOn isErr s.op.output = false := by
    intro s' hm hrun _ _
    exfalso
    rcases List.mem_map.mp hm with ⟨s, hs, rfl⟩
    rw [wakeSlot_state] at hrun
    rcases hcr s hs with h | h <;> rw [h] at hrun <;> cases hrun
  have hnorun : ∀ s' ∈ (slots.map wakeSlot).map passSlot, s'.state ≠ .running := by
    rw [map_promptSlot]
    intro s' hm
    rcases List.mem_map.mp hm with ⟨s, hs, rfl⟩
    rcases promptSlot_state_drain (hcr s hs) with h | h <;> rw [h] <;> intro hC <;> cases hC
  simp only [Group.promptStep, Group.promptWake, Group.step]
  rw [drivePass_eq_map pol isErr _ H2]
  cases trig with
  | none =>
    rw [map_promptSlot]
    rfl
  | some t =>
    simp only [Option.isSome_some, if_true]
    rw [cancelRunning_id _ hnorun, map_promptSlot]

theorem promptSlotIter_cancelled : ∀ (k : Nat) (s : Slot α),
    (s.state = .cancelRequested ∨ s.state = .cancelled) → slotMeasure s ≤ k →
    (promptSlotIter s k).state = .cancelled := by
  intro k
  induction k with
  | zero =>
    intro s h hm
    rcases h with h | h
    · simp [slotMeasure, h] at hm
    · exact h
  | succ k ih =>
    intro s h hm
    rw [promptSlotIter]
    rcases h with h | h
    · by_cases hlt : s.cancelPolls < s.op.cancelAfter
      · apply ih
        · left
          rw [promptSlot_cancelRequested h, Slot.pollCancel_of_lt (s := { s with wake := false }) hlt]
          exact h
        · rw [promptSlot_cancelRequested h, Slot.pollCancel_of_lt (s := { s with wake := false }) hlt]
          simp only [slotMeasure, h] at hm
          simp only [slotMeasure, h]
          omega
      · apply ih
        · right
          rw [promptSlot_cancelRequested h,
            Slot.pollCancel_of_ge (s := { s with wake := false }) (Nat.le_of_not_lt hlt)]
        · rw [promptSlot_cancelRequested h,
            Slot.pollCancel_of_ge (s := { s with wake := false }) (Nat.le_of_not_lt hlt)]
          simp [slotMeasure]
    · have h2 : (promptSlot s).state = .cancelled := by
        rw [promptSlot_state_of_terminal (by rw [h]; rfl)]
        exact h
      apply ih
      · right
        exact h2
      · simp [slotMeasure, h2]

theorem promptIter_drain : ∀ (k : Nat) (g : Group α),
    (∀ s ∈ g.slots, s.state = .cancelRequested ∨ s.state = .cancelled) →
    (g.promptIter k).slots = g.slots.map fun s => promptSlotIter s k := by
  intro k
  induction k with
  | zero =>
    intro g _
    simp [Group.promptIter, promptSlotIter]
  | succ k ih =>
    intro g hcr
    have hfst := Group.promptStep_fst_drain g hcr
    have hcr' : ∀ s' ∈ (g.promptStep.1).slots,
        s'.state = .cancelRequested ∨ s'.state = .cancelled := by
      rw [hfst]
      intro s' hm
      rcases List.mem_map.mp hm with ⟨s, hs, rfl⟩
      exact promptSlot_state_drain (hcr s hs)
    rw [Group.promptIter_succ, ih _ hcr', hfst]
    show (g.slots.map promptSlot).map (fun s => promptSlotIter s k) = _
    rw [List.map_map]
    rfl

/-! ## Full characterization of one driver pass and one prompt step -/

theorem drivePass_char (pol : Policy) (isErr : α → Bool) :
    ∀ (slots : List (Slot α)) (n : Nat) (trig : Option (Nat × α)),
      drivePass pol isErr n trig slots =
        (slots.map passSlot,
         (match trig with
          | some t => some t
          | none => firstFire pol isErr n slots),
         polledOf n slots) := by
  intro slots
  induction slots with
  | nil => intro n trig; cases trig <;> rfl
  | cons s rest ih =>
    intro n trig
    by_cases hw : s.wake
    · cases hs : s.state with
      | running =>
        by_cases hlt : s.readyPolls < s.op.readyAfter
        · have hfire : slotFires pol isErr s = false := by
            simp [slotFires, hs, Nat.not_le.mpr hlt]
          simp [drivePass, hw, hs, Slot.pollReady, hlt, ih, passSlot, polledOf,
            SlotState.pollable, firstFire, hfire]
        · have hge := Nat.le_of_not_lt hlt
          cases trig with
          | some t =>
            simp [drivePass, hw, hs, Slot.pollReady, hlt, ih, passSlot, polledOf,
              SlotState.pollable]
          | none =>
            by_cases htr : pol.triggersOn isErr s.op.output = true
            · have hfire : slotFires pol isErr s = true := by
                simp [slotFires, hs, hw, hge, htr]
              simp [drivePass, hw, hs, Slot.pollReady, hlt, ih, passSlot, polledOf,
                SlotState.pollable, firstFire, hfire, htr]
            · have htr' : pol.triggersOn isErr s.op.output = false := by
                revert htr
                cases pol.triggersOn isErr s.op.output <;> simp
              have hfire : slotFires pol isErr s = false := by
                simp [slotFires, hs, htr']
              simp [drivePass, hw, hs, Slot.pollReady, hlt, ih, passSlot, polledOf,
                SlotState.pollable, firstFire, hfire, htr']
      | cancelRequested =>
        have hfire : slotFires pol isErr s = false := by simp [slotFires, hs]
        simp [drivePass, hw, hs, ih, passSlot, polledOf, SlotState.pollable, firstFire, hfire]
      | finished out =>
        have hfire : slotFires pol isErr s = false := by simp [slotFires, hs]
        simp [drivePass, hw, hs, ih, passSlot, polledOf, SlotState.pollable, firstFire, hfire]
      | cancelled =>
        have hfire : slotFires pol isErr s = false := by simp [slotFires, hs]
        simp [drivePass, hw, hs, ih, passSlot, polledOf, SlotState.pollable, firstFire, hfire]
    · have hfire : slotFires pol isErr s = false := by simp [slotFires, hw]
      simp [drivePass, hw, ih, passSlot, polledOf, firstFire, hfire]

theorem Group.promptStep_char (g : Group α) :
    g.promptStep = ({ g with slots := g.promptSlots, trigger := g.promptTrigger },
      if allTerminal g.promptSlots then
        Group.result { g with slots := g.promptSlots, trigger := g.promptTrigger }
      else none) := by
  obtain ⟨pol, isErr, slots, trig⟩ := g
  simp only [Group.promptStep, Group.promptWake, Group.step, Group.promptSlots,
    Group.promptTrigger]
  rw [drivePass_char, map_promptSlot]

theorem Group.promptIter_succ_right (g : Group α) (k : Nat) :
    g.promptIter (k + 1) = (g.promptIter k).promptStep.1 := by
  induction k generalizing g with
  | zero => rfl
  | succ k ih =>
    rw [Group.promptIter_succ, ih, Group.promptIter_succ]

theorem promptRun_some_elim (g : Group α) :
    ∀ (fuel : Nat) (r : GroupResult α), g.promptRun fuel = some r →
      ∃ k, k < fuel ∧ (g.promptIter k).promptStep.2 = some r := by
  intro fuel
  induction fuel generalizing g with
  | zero => intro r hr; cases hr
  | succ fuel ih =>
    intro r hr
    rw [Group.promptRun_succ] at hr
    cases h0 : g.promptStep.2 with
    | some r0 =>
      rw [h0] at hr
      simp only [] at hr
      cases hr
      exact ⟨0, Nat.succ_pos fuel, h0⟩
    | none =>
      rw [h0] at hr
      simp only [] at hr
      rcases ih (g.promptStep.1) r hr with ⟨k, hk, hres⟩
      exact ⟨k + 1, by omega, hres⟩

theorem promptRun_isSome (g : Group α) :
    ∀ (fuel k : Nat) (r : GroupResult α), k < fuel →
      (g.promptIter k).promptStep.2 = some r →
      ∃ r', g.promptRun fuel = some r' := by
  intro fuel
  induction fuel generalizing g with
  | zero => intro k r hk; omega
  | succ fuel ih =>
    intro k r hk hres
    rw [Group.promptRun_succ]
    cases h0 : g.promptStep.2 with
    | some r0 => exact ⟨r0, rfl⟩
    | none =>
      simp only []
      cases k with
      | zero =>
        rw [show g.promptIter 0 = g from rfl] at hres
        rw [hres] at h0
        cases h0
      | succ k =>
        exact ih (g.promptStep.1) k r (by omega) hres

/-! ## Per-slot trajectory of a run that fires its trigger at step E + 1 -/

theorem slotPhaseA_zero (op : Operation α) : slotPhaseA 0 op = mkSlot op := by
  simp [slotPhaseA, mkSlot]

theorem slotPhaseA_op (k : Nat) (op : Operation α) : (slotPhaseA k op).op = op := by
  unfold slotPhaseA; split <;> rfl

theorem promptSlot_slotPhaseA (k : Nat) (op : Operation α) :
    promptSlot (slotPhaseA k op) = slotPhaseA (k + 1) op := by
  by_cases h1 : k + 1 ≤ op.readyAfter
  · have hk : k ≤ op.readyAfter := Nat.le_of_succ_le h1
    have hlt : k < op.readyAfter := h1
    simp [slotPhaseA, hk, h1, promptSlot, wakeSlot, SlotState.isTerminal, passSlot,
      Slot.pollReady, hlt]
  · by_cases h2 : k ≤ op.readyAfter
    · have heq : op.readyAfter = k := by omega
      simp [slotPhaseA, h2, h1, promptSlot, wakeSlot, SlotState.isTerminal, passSlot,
        Slot.pollReady, heq]
    · have h3 : ¬ k + 1 ≤ op.readyAfter := by omega
      simp [slotPhaseA, h2, h3, promptSlot, wakeSlot, SlotState.isTerminal, passSlot]

theorem promptSlot_slotPhaseC (E m : Nat) (op : Operation α) :
    promptSlot (slotPhaseC E m op) = slotPhaseC E (m + 1) op := by
  by_cases h1 : op.readyAfter ≤ E
  · simp [slotPhaseC, h1, promptSlot, wakeSlot, SlotState.isTerminal, passSlot]
  · by_cases h2 : m ≤ op.cancelAfter
    · by_cases h3 : m + 1 ≤ op.cancelAfter
      · have hlt : m < op.cancelAfter := h3
        simp [slotPhaseC, h1, h2, h3, promptSlot, wakeSlot, SlotState.isTerminal, passSlot,
          Slot.pollCancel, hlt]
      · have heq : op.cancelAfter = m := by omega
        simp [slotPhaseC, h1, h2, h3, promptSlot, wakeSlot, SlotState.isTerminal, passSlot,
          Slot.pollCancel, heq]
    · have h3 : ¬ m + 1 ≤ op.cancelAfter := by omega
      simp [slotPhaseC, h1, h2, h3, promptSlot, wakeSlot, SlotState.isTerminal, passSlot]

theorem cancelRunning_map (f g : Operation α → Slot α) (ops : List (Operation α))
    (h : ∀ op, (match (f op).state with
      | SlotState.running => { f op with state := SlotState.cancelRequested }
      | _ => f op) = g op) :
    cancelRunning (ops.map f) = ops.map g := by
  simp only [cancelRunning, List.map_map]
  exact List.map_congr_left fun op _ => h op

theorem crSlot_phaseA_succ (E : Nat) (op : Operation α) :
    (match (slotPhaseA (E + 1) op).state with
      | SlotState.running => { slotPhaseA (E + 1) op with state := SlotState.cancelRequested }
      | _ => slotPhaseA (E + 1) op) = slotPhaseC E 0 op := by
  by_cases h : E + 1 ≤ op.readyAfter
  · have h2 : ¬ op.readyAfter ≤ E := by omega
    simp [slotPhaseA, h, slotPhaseC, h2]
  · have h2 : op.readyAfter ≤ E := by omega
    simp [slotPhaseA, h, slotPhaseC, h2]

theorem crSlot_phaseC (E m : Nat) (op : Operation α) :
    (match (slotPhaseC E m op).state with
      | SlotState.running => { slotPhaseC E m op with state := SlotState.cancelRequested }
      | _ => slotPhaseC E m op) = slotPhaseC E m op := by
  by_cases h1 : op.readyAfter ≤ E
  · simp [slotPhaseC, h1]
  · by_cases h2 : m ≤ op.cancelAfter
    · simp [slotPhaseC, h1, h2]
    · simp [slotPhaseC, h1, h2]

theorem firstFire_phaseA_none (pol : Policy) (isErr : α → Bool) (k : Nat) :
    ∀ (ops : List (Operation α)) (n : Nat),
      (∀ op ∈ ops, op.readyAfter = k → pol.triggersOn isErr op.output = false) →
      firstFire pol isErr n ((ops.map (slotPhaseA k)).map wakeSlot) = none := by
  intro ops
  induction ops with
  | nil => intro n _; rfl
  | cons op rest ih =>
    intro n hnf
    have hhead : slotFires pol isErr (wakeSlot (slotPhaseA k op)) = false := by
      by_cases hk : k ≤ op.readyAfter
      · by_cases heq : op.readyAfter = k
        · have hno := hnf op (List.mem_cons_self op rest) heq
          simp [slotPhaseA, hk, wakeSlot, SlotState.isTerminal, slotFires, hno]
        · have hlt : k < op.readyAfter := by omega
          simp [slotPhaseA, hk, wakeSlot, SlotState.isTerminal, slotFires, Nat.not_le.mpr hlt]
      · simp [slotPhaseA, hk, wakeSlot, SlotState.isTerminal, slotFires]
    simp only [List.map_cons, firstFire, hhead, Bool.false_eq_true, if_false]
    exact ih (n + 1) fun op' hm hr => hnf op' (List.mem_cons_of_mem _ hm) hr

theorem firstFire_phaseA_at (pol : Policy) (isErr : α → Bool) :
    ∀ (ops : List (Operation α)) (n i : Nat) (opE : Operation α),
      ops[i]? = some opE →
      pol.triggersOn isErr opE.output = true →
      (∀ j op', j < i → ops[j]? = some op' → pol.triggersOn isErr op'.output = true →
        opE.readyAfter < op'.readyAfter) →
      firstFire pol isErr n ((ops.map (slotPhaseA opE.readyAfter)).map wakeSlot) =
        some (n + i, opE.output) := by
  intro ops
  induction ops with
  | nil => intro n i opE hi; simp at hi
  | cons op rest ih =>
    intro n i opE hi htr hprev
    cases i with
    | zero =>
      simp only [List.getElem?_cons_zero, Option.some.injEq] at hi
      subst hi
      have hfire : slotFires pol isErr (wakeSlot (slotPhaseA op.readyAfter op)) = true := by
        simp [slotPhaseA, wakeSlot, SlotState.isTerminal, slotFires, htr]
      simp [List.map_cons, firstFire, hfire, wakeSlot_op, slotPhaseA_op]
    | succ i =>
      simp only [List.getElem?_cons_succ] at hi
      have hhead : slotFires pol isErr (wakeSlot (slotPhaseA opE.readyAfter op)) = false := by
        by_cases hk : opE.readyAfter ≤ op.readyAfter
        · by_cases heq : op.readyAfter = opE.readyAfter
          · by_cases htr0 : pol.triggersOn isErr op.output = true
            · exact absurd (hprev 0 op (Nat.succ_pos i) (by simp) htr0) (by omega)
            · have htr0' : pol.triggersOn isErr op.output = false := by
                revert htr0
                cases pol.triggersOn isErr op.output <;> simp
              simp [slotPhaseA, hk, wakeSlot, SlotState.isTerminal, slotFires, htr0']
          · have hlt : opE.readyAfter < op.readyAfter := by omega
            simp [slotPhaseA, hk, wakeSlot, SlotState.isTerminal, slotFires, Nat.not_le.mpr hlt]
        · simp [slotPhaseA, hk, wakeSlot, SlotState.isTerminal, slotFires]
      simp only [List.map_cons, firstFire, hhead, Bool.false_eq_true, if_false]
      have hrec := ih (n + 1) i opE hi htr
        (fun j op' hj hjel htr' => hprev (j + 1) op' (by omega) (by simpa using hjel) htr')
      rw [hrec, show (n + 1) + i = n + (i + 1) by omega]

theorem slotPhaseA_not_terminal (k : Nat) (op : Operation α) (h : k ≤ op.readyAfter) :
    (slotPhaseA k op).state.isTerminal = false := by
  simp [slotPhaseA, h, SlotState.isTerminal]

theorem allTerminal_phaseA_false (ops : List (Operation α)) (k i : Nat) (opE : Operation α)
    (hi : ops[i]? = some opE) (h : k ≤ opE.readyAfter) :
    allTerminal (ops.map (slotPhaseA k)) = false := by
  have hmem : slotPhaseA k opE ∈ ops.map (slotPhaseA k) :=
    List.mem_map_of_mem _ (List.get?_mem (by rw [List.get?_eq_getElem?]; exact hi))
  cases hat : allTerminal (ops.map (slotPhaseA k)) with
  | false => rfl
  | true =>
    exfalso
    have hterm := (allTerminal_iff _).mp hat _ hmem
    rw [slotPhaseA_not_terminal k opE h] at hterm
    cases hterm

theorem slotPhaseC_terminal_iff (E m : Nat) (op : Operation α) :
    (slotPhaseC E m op).state.isTerminal = true ↔ (E < op.readyAfter → op.cancelAfter < m) := by
  by_cases h1 : op.readyAfter ≤ E
  · simp only [slotPhaseC, h1, if_true, SlotState.isTerminal]
    constructor
    · intro _
      omega
    · intro _
      trivial
  · by_cases h2 : m ≤ op.cancelAfter
    · simp only [slotPhaseC, h1, if_false, h2, if_true, SlotState.isTerminal]
      constructor
      · intro h
        cases h
      · intro h
        exfalso
        omega
    · simp only [slotPhaseC, h1, if_false, h2, SlotState.isTerminal]
      constructor
      · intro _
        omega
      · intro _
        trivial

theorem allTerminal_phaseC_iff (ops : List (Operation α)) (E m : Nat) :
    allTerminal (ops.map (slotPhaseC E m)) = true ↔
      ∀ op ∈ ops, E < op.readyAfter → op.cancelAfter < m := by
  rw [allTerminal_iff]
  constructor
  · intro h op hm
    exact (slotPhaseC_terminal_iff E m op).mp (h _ (List.mem_map_of_mem _ hm))
  · intro h s hs
    rcases List.mem_map.mp hs with ⟨op, hop, rfl⟩
    exact (slotPhaseC_terminal_iff E m op).mpr (h op hop)

theorem result_triggered (pol : Policy) (isErr : α → Bool) (slots : List (Slot α))
    (i : Nat) (out : α) (htr : pol.triggersOn isErr out = true) :
    (Group.mk pol isErr slots (some (i, out))).result = some (triggeredResult pol out) := by
  cases pol with
  | zip => simp [Policy.triggersOn] at htr
  | tryZip => rfl
  | race => rfl
  | raceOk => rfl

/-! ## Group trajectory of a run that fires its trigger at step E + 1 -/

theorem map_promptSlot_phaseA (ops : List (Operation α)) (k : Nat) :
    (ops.map (slotPhaseA k)).map promptSlot = ops.map (slotPhaseA (k + 1)) := by
  rw [List.map_map]
  exact List.map_congr_left fun op _ => promptSlot_slotPhaseA k op

theorem map_promptSlot_phaseC (ops : List (Operation α)) (E m : Nat) :
    (ops.map (slotPhaseC E m)).map promptSlot = ops.map (slotPhaseC E (m + 1)) := by
  rw [List.map_map]
  exact List.map_congr_left fun op _ => promptSlot_slotPhaseC E m op

theorem phaseCGroup_result (pol : Policy) (isErr : α → Bool) (ops : List (Operation α))
    (i : Nat) (out : α) (E m : Nat) (htr : pol.triggersOn isErr out = true) :
    (phaseCGroup pol isErr ops i out E m).result = some (triggeredResult pol out) :=
  result_triggered pol isErr _ i out htr

theorem phaseA_step (pol : Policy) (isErr : α → Bool) (ops : List (Operation α)) (k : Nat)
    (hnf : ∀ op ∈ ops, op.readyAfter = k → pol.triggersOn isErr op.output = false)
    (i : Nat) (opE : Operation α) (hi : ops[i]? = some opE) (hrun : k + 1 ≤ opE.readyAfter) :
    (phaseAGroup pol isErr ops k).promptStep = (phaseAGroup pol isErr ops (k + 1), none) := by
  have htrig : (phaseAGroup pol isErr ops k).promptTrigger = none := by
    simp only [Group.promptTrigger, phaseAGroup]
    exact firstFire_phaseA_none pol isErr k ops 0 hnf
  have hslots : (phaseAGroup pol isErr ops k).promptSlots = ops.map (slotPhaseA (k + 1)) := by
    simp only [Group.promptSlots, htrig, Option.isSome_none, Bool.false_eq_true, if_false]
    simp only [phaseAGroup]
    exact map_promptSlot_phaseA ops k
  rw [Group.promptStep_char, htrig, hslots,
    allTerminal_phaseA_false ops (k + 1) i opE hi hrun]
  rfl

theorem phaseA_trigger_step (pol : Policy) (isErr : α → Bool) (ops : List (Operation α))
    (i : Nat) (opE : Operation α) (hi : ops[i]? = some opE)
    (htr : pol.triggersOn isErr opE.output = true)
    (hprev : ∀ j op', j < i → ops[j]? = some op' → pol.triggersOn isErr op'.output = true →
      opE.readyAfter < op'.readyAfter) :
    (phaseAGroup pol isErr ops opE.readyAfter).promptStep =
      (phaseCGroup pol isErr ops i opE.output opE.readyAfter 0,
       if allTerminal (ops.map (slotPhaseC opE.readyAfter 0)) then
         some (triggeredResult pol opE.output) else none) := by
  have htrig : (phaseAGroup pol isErr ops opE.readyAfter).promptTrigger =
      some (i, opE.output) := by
    simp only [Group.promptTrigger, phaseAGroup]
    rw [firstFire_phaseA_at pol isErr ops 0 i opE hi htr hprev, Nat.zero_add]
  have hslots : (phaseAGroup pol isErr ops opE.readyAfter).promptSlots =
      ops.map (slotPhaseC opE.readyAfter 0) := by
    simp only [Group.promptSlots, htrig, Option.isSome_some, if_true]
    simp only [phaseAGroup]
    rw [map_promptSlot_phaseA]
    exact cancelRunning_map _ _ ops fun op => crSlot_phaseA_succ opE.readyAfter op
  rw [Group.promptStep_char, htrig, hslots]
  have hgrp : ({ phaseAGroup pol isErr ops opE.readyAfter with
      slots := ops.map (slotPhaseC opE.readyAfter 0), trigger := some (i, opE.output) } :
      Group α) = phaseCGroup pol isErr ops i opE.output opE.readyAfter 0 := rfl
  rw [hgrp, phaseCGroup_result pol isErr ops i opE.output opE.readyAfter 0 htr]

theorem phaseC_step (pol : Policy) (isErr : α → Bool) (ops : List (Operation α)) (i : Nat)
    (out : α) (E m : Nat) (htr : pol.triggersOn isErr out = true) :
    (phaseCGroup pol isErr ops i out E m).promptStep =
      (phaseCGroup pol isErr ops i out E (m + 1),
       if allTerminal (ops.map (slotPhaseC E (m + 1))) then
         some (triggeredResult pol out) else none) := by
  have htrig : (phaseCGroup pol isErr ops i out E m).promptTrigger = some (i, out) := rfl
  have hslots : (phaseCGroup pol isErr ops i out E m).promptSlots =
      ops.map (slotPhaseC E (m + 1)) := by
    simp only [Group.promptSlots, htrig, Option.isSome_some, if_true]
    simp only [phaseCGroup]
    rw [map_promptSlot_phaseC]
    exact cancelRunning_map _ _ ops fun op => crSlot_phaseC E (m + 1) op
  rw [Group.promptStep_char, htrig, hslots]
  have hgrp : ({ phaseCGroup pol isErr ops i out E m with
      slots := ops.map (slotPhaseC E (m + 1)), trigger := some (i, out) } : Group α) =
      phaseCGroup pol isErr ops i out E (m + 1) := rfl
  rw [hgrp, phaseCGroup_result pol isErr ops i out E (m + 1) htr]

theorem phaseA_iter (pol : Policy) (isErr : α → Bool) (ops : List (Operation α))
    (i : Nat) (opE : Operation α) (hi : ops[i]? = some opE)
    (hnfAll : ∀ op ∈ ops, op.readyAfter < opE.readyAfter →
      pol.triggersOn isErr op.output = false) :
    ∀ k, k ≤ opE.readyAfter →
      (mkGroup pol isErr ops).promptIter k = phaseAGroup pol isErr ops k := by
  intro k
  induction k with
  | zero =>
    intro _
    show mkGroup pol isErr ops = phaseAGroup pol isErr ops 0
    simp only [mkGroup, phaseAGroup]
    congr 1
    exact List.map_congr_left fun op _ => (slotPhaseA_zero op).symm
  | succ k ih =>
    intro hk
    rw [Group.promptIter_succ_right, ih (by omega),
      phaseA_step pol isErr ops k (fun op hm he => hnfAll op hm (by omega)) i opE hi (by omega)]

theorem phaseC_iter (pol : Policy) (isErr : α → Bool) (ops : List (Operation α))
    (i : Nat) (opE : Operation α) (hi : ops[i]? = some opE)
    (htr : pol.triggersOn isErr opE.output = true)
    (hnfAll : ∀ op ∈ ops, op.readyAfter < opE.readyAfter →
      pol.triggersOn isErr op.output = false)
    (hprev : ∀ j op', j < i → ops[j]? = some op' → pol.triggersOn isErr op'.output = true →
      opE.readyAfter < op'.readyAfter) :
    ∀ m, (mkGroup pol isErr ops).promptIter (opE.readyAfter + 1 + m) =
      phaseCGroup pol isErr ops i opE.output opE.readyAfter m := by
  intro m
  induction m with
  | zero =>
    show (mkGroup pol isErr ops).promptIter (opE.readyAfter + 1) = _
    rw [Group.promptIter_succ_right,
      phaseA_iter pol isErr ops i opE hi hnfAll opE.readyAfter (Nat.le_refl _),
      phaseA_trigger_step pol isErr ops i opE hi htr hprev]
  | succ m ih =>
    show (mkGroup pol isErr ops).promptIter ((opE.readyAfter + 1 + m) + 1) = _
    rw [Group.promptIter_succ_right, ih,
      phaseC_step pol isErr ops i opE.output opE.readyAfter m htr]

theorem phaseA_iter_res (pol : Policy) (isErr : α → Bool) (ops : List (Operation α))
    (i : Nat) (opE : Operation α) (hi : ops[i]? = some opE)
    (hnfAll : ∀ op ∈ ops, op.readyAfter < opE.readyAfter →
      pol.triggersOn isErr op.output = false) :
    ∀ k, k < opE.readyAfter →
      ((mkGroup pol isErr ops).promptIter k).promptStep.2 = none := by
  intro k hk
  rw [phaseA_iter pol isErr ops i opE hi hnfAll k (by omega),
    phaseA_step pol isErr ops k (fun op hm he => hnfAll op hm (by omega)) i opE hi (by omega)]

theorem phaseE_res (pol : Policy) (isErr : α → Bool) (ops : List (Operation α))
    (i : Nat) (opE : Operation α) (hi : ops[i]? = some opE)
    (htr : pol.triggersOn isErr opE.output = true)
    (hnfAll : ∀ op ∈ ops, op.readyAfter < opE.readyAfter →
      pol.triggersOn isErr op.output = false)
    (hprev : ∀ j op', j < i → ops[j]? = some op' → pol.triggersOn isErr op'.output = true →
      opE.readyAfter < op'.readyAfter) :
    ((mkGroup pol isErr ops).promptIter opE.readyAfter).promptStep.2 =
      if allTerminal (ops.map (slotPhaseC opE.readyAfter 0)) then
        some (triggeredResult pol opE.output) else none := by
  rw [phaseA_iter pol isErr ops i opE hi hnfAll opE.readyAfter (Nat.le_refl _),
    phaseA_trigger_step pol isErr ops i opE hi htr hprev]

theorem phaseC_res (pol : Policy) (isErr : α → Bool) (ops : List (Operation α))
    (i : Nat) (opE : Operation α) (hi : ops[i]? = some opE)
    (htr : pol.triggersOn isErr opE.output = true)
    (hnfAll : ∀ op ∈ ops, op.readyAfter < opE.readyAfter →
      pol.triggersOn isErr op.output = false)
    (hprev : ∀ j op', j < i → ops[j]? = some op' → pol.triggersOn isErr op'.output = true →
      opE.readyAfter < op'.readyAfter) :
    ∀ m, ((mkGroup pol isErr ops).promptIter (opE.readyAfter + 1 + m)).promptStep.2 =
      if allTerminal (ops.map (slotPhaseC opE.readyAfter (m + 1))) then
        some (triggeredResult pol opE.output) else none := by
  intro m
  rw [phaseC_iter pol isErr ops i opE hi htr hnfAll hprev m,
    phaseC_step pol isErr ops i opE.output opE.readyAfter m htr]

/-! ## Main facts about a run whose first trigger is slot i -/

theorem le_maxCancel (ops : List (Operation α)) (op : Operation α) (h : op ∈ ops) :
    op.cancelAfter ≤ maxCancel ops := by
  induction ops with
  | nil => cases h
  | cons o rest ih =>
    rcases List.mem_cons.mp h with rfl | hm
    · simp only [maxCancel, List.map_cons, List.foldr_cons]
      exact Nat.le_max_left _ _
    · have hr := ih hm
      simp only [maxCancel, List.map_cons, List.foldr_cons]
      simp only [maxCancel] at hr
      exact Nat.le_trans hr (Nat.le_max_right _ _)

theorem getElem?_lt_length {l : List (Operation α)} {n : Nat} {op : Operation α}
    (h : l[n]? = some op) : n < l.length := by
  by_contra hbig
  rw [List.getElem?_eq_none (l := l) (by omega)] at h
  cases h

theorem exists_getElem?_of_mem {l : List (Operation α)} {op : Operation α} (h : op ∈ l) :
    ∃ n : Nat, l[n]? = some op := by
  obtain ⟨n, hn⟩ := List.get?_of_mem h
  exact ⟨n, by rw [List.get?_eq_getElem?] at hn; exact hn⟩

theorem getElem?_to_get {l : List (Operation α)} {n : Nat} {op : Operation α}
    (h : l[n]? = some op) : ∃ hn : n < l.length, l.get ⟨n, hn⟩ = op := by
  have hn := getElem?_lt_length h
  refine ⟨hn, ?_⟩
  rw [List.getElem?_eq_getElem hn] at h
  rw [List.get_eq_getElem]
  exact Option.some_injective _ h

theorem firstTrigger_value (pol : Policy) (isErr : α → Bool) (ops : List (Operation α))
    (i : Nat) (opE : Operation α) (hi : ops[i]? = some opE)
    (htr : pol.triggersOn isErr opE.output = true)
    (hnfAll : ∀ op ∈ ops, op.readyAfter < opE.readyAfter →
      pol.triggersOn isErr op.output = false)
    (hprev : ∀ j op', j < i → ops[j]? = some op' → pol.triggersOn isErr op'.output = true →
      opE.readyAfter < op'.readyAfter) :
    ∀ fuel r, (mkGroup pol isErr ops).promptRun fuel = some r →
      r = triggeredResult pol opE.output := by
  intro fuel r hr
  rcases promptRun_some_elim _ fuel r hr with ⟨k, _, hres⟩
  rcases Nat.lt_trichotomy k opE.readyAfter with hlt | heq | hgt
  · rw [phaseA_iter_res pol isErr ops i opE hi hnfAll k hlt] at hres
    cases hres
  · subst heq
    rw [phaseE_res pol isErr ops i opE hi htr hnfAll hprev] at hres
    split at hres
    · exact (Option.some_injective _ hres).symm
    · cases hres
  · have hk : k = opE.readyAfter + 1 + (k - opE.readyAfter - 1) := by omega
    rw [hk, phaseC_res pol isErr ops i opE hi htr hnfAll hprev] at hres
    split at hres
    · exact (Option.some_injective _ hres).symm
    · cases hres

theorem firstTrigger_yields (pol : Policy) (isErr : α → Bool) (ops : List (Operation α))
    (i : Nat) (opE : Operation α) (hi : ops[i]? = some opE)
    (htr : pol.triggersOn isErr opE.output = true)
    (hnfAll : ∀ op ∈ ops, op.readyAfter < opE.readyAfter →
      pol.triggersOn isErr op.output = false)
    (hprev : ∀ j op', j < i → ops[j]? = some op' → pol.triggersOn isErr op'.output = true →
      opE.readyAfter < op'.readyAfter) :
    ∃ fuel, (mkGroup pol isErr ops).promptRun fuel =
      some (triggeredResult pol opE.output) := by
  have hall : allTerminal (ops.map (slotPhaseC opE.readyAfter (maxCancel ops + 1))) = true :=
    (allTerminal_phaseC_iff ops _ _).mpr fun op hm _ => by
      have := le_maxCancel ops op hm
      omega
  have hres : ((mkGroup pol isErr ops).promptIter
      (opE.readyAfter + 1 + maxCancel ops)).promptStep.2 =
      some (triggeredResult pol opE.output) := by
    rw [phaseC_res pol isErr ops i opE hi htr hnfAll hprev (maxCancel ops), hall]
    rfl
  rcases promptRun_isSome _ (opE.readyAfter + 1 + maxCancel ops + 1)
      (opE.readyAfter + 1 + maxCancel ops) _ (by omega) hres with ⟨r', hr'⟩
  refine ⟨opE.readyAfter + 1 + maxCancel ops + 1, ?_⟩
  rw [hr', firstTrigger_value pol isErr ops i opE hi htr hnfAll hprev _ r' hr']

theorem firstTrigger_cancelRequested (pol : Policy) (isErr : α → Bool)
    (ops : List (Operation α)) (i : Nat) (opE : Operation α) (hi : ops[i]? = some opE)
    (htr : pol.triggersOn isErr opE.output = true)
    (hnfAll : ∀ op ∈ ops, op.readyAfter < opE.readyAfter →
      pol.triggersOn isErr op.output = false)
    (hprev : ∀ j op', j < i → ops[j]? = some op' → pol.triggersOn isErr op'.output = true →
      opE.readyAfter < op'.readyAfter) :
    ∀ (j : Nat) (op' : Operation α), ops[j]? = some op' → opE.readyAfter < op'.readyAfter →
      ∀ m, m ≤ op'.cancelAfter →
      (((mkGroup pol isErr ops).promptIter
        (opE.readyAfter + 1 + m)).slots[j]?).map Slot.state = some .cancelRequested := by
  intro j op' hj hra m hm
  rw [phaseC_iter pol isErr ops i opE hi htr hnfAll hprev m]
  show ((ops.map (slotPhaseC opE.readyAfter m))[j]?).map Slot.state = _
  rw [List.getElem?_map, hj]
  simp only [Option.map_some']
  have h1 : ¬ op'.readyAfter ≤ opE.readyAfter := by omega
  simp [slotPhaseC, h1, hm]

theorem firstTrigger_cancelled (pol : Policy) (isErr : α → Bool)
    (ops : List (Operation α)) (i : Nat) (opE : Operation α) (hi : ops[i]? = some opE)
    (htr : pol.triggersOn isErr opE.output = true)
    (hnfAll : ∀ op ∈ ops, op.readyAfter < opE.readyAfter →
      pol.triggersOn isErr op.output = false)
    (hprev : ∀ j op', j < i → ops[j]? = some op' → pol.triggersOn isErr op'.output = true →
      opE.readyAfter < op'.readyAfter) :
    ∀ (j : Nat) (op' : Operation α), ops[j]? = some op' → opE.readyAfter < op'.readyAfter →
      ∀ (fuel : Nat) (r : GroupResult α), (mkGroup pol isErr ops).promptRun fuel = some r →
      (((mkGroup pol isErr ops).promptIter fuel).slots[j]?).map Slot.state =
        some .cancelled := by
  intro j op' hj hra fuel r hr
  rcases promptRun_some_elim _ fuel r hr with ⟨k, hkf, hres⟩
  have hmem : op' ∈ ops := List.get?_mem (by rw [List.get?_eq_getElem?]; exact hj)
  rcases Nat.lt_trichotomy k opE.readyAfter with hlt | heq | hgt
  · rw [phaseA_iter_res pol isErr ops i opE hi hnfAll k hlt] at hres
    cases hres
  · subst heq
    rw [phaseE_res pol isErr ops i opE hi htr hnfAll hprev] at hres
    split at hres
    case isTrue hT =>
      have := (allTerminal_phaseC_iff ops _ _).mp hT op' hmem hra
      omega
    case isFalse => cases hres
  · have hk : k = opE.readyAfter + 1 + (k - opE.readyAfter - 1) := by omega
    rw [hk, phaseC_res pol isErr ops i opE hi htr hnfAll hprev] at hres
    split at hres
    case isTrue hT =>
      have hca := (allTerminal_phaseC_iff ops _ _).mp hT op' hmem hra
      have hfe : fuel = opE.readyAfter + 1 + (fuel - opE.readyAfter - 1) := by omega
      rw [hfe, phaseC_iter pol isErr ops i opE hi htr hnfAll hprev]
      show ((ops.map (slotPhaseC opE.readyAfter _))[j]?).map Slot.state = _
      rw [List.getElem?_map, hj]
      simp only [Option.map_some']
      have h1 : ¬ op'.readyAfter ≤ opE.readyAfter := by omega
      have h2 : ¬ (fuel - opE.readyAfter - 1) ≤ op'.cancelAfter := by omega
      simp [slotPhaseC, h1, h2]
    case isFalse => cases hres

/-! ## Claim theorems -/

/-- C1: for every join group of arity N ≥ 2, under any of the four policies,
at the moment the Group Result is produced every one of the N slots is in a
terminal state (`Finished` or `Cancelled`) — never `Running` or
`CancelRequested`. -/
theorem all_complete_invariant (g : Group α) (_hN : 2 ≤ g.slots.length)
    (r : GroupResult α) (hr : g.step.2.2 = some r) :
    g.step.1.slots.length = g.slots.length ∧
      ∀ s ∈ g.step.1.slots, s.state.isTerminal = true := by
  refine ⟨Group.step_length g, ?_⟩
  rw [Group.step_res] at hr
  split at hr
  case isTrue hT => exact (allTerminal_iff _).mp hT
  case isFalse => cases hr

/-- Witness for C1: a two-slot race group whose step yields a result has all
slots terminal. -/
theorem all_complete_invariant_witness :
    (mkGroup .race (fun _ => false) [(⟨0, 5, 0⟩ : Operation Nat), ⟨0, 6, 0⟩]).step.1.slots.length =
        (mkGroup .race (fun _ => false) [(⟨0, 5, 0⟩ : Operation Nat), ⟨0, 6, 0⟩]).slots.length ∧
      ∀ s ∈ (mkGroup .race (fun _ => false) [(⟨0, 5, 0⟩ : Operation Nat), ⟨0, 6, 0⟩]).step.1.slots,
        s.state.isTerminal = true :=
  all_complete_invariant _ (by decide) (.winner 5) (by decide)

/-- C2: a Join Group never discards an Operation outside a terminal state: a
step only yields the Group Result with every slot terminal; whole-group
cancellation merely marks Running slots CancelRequested (no slot is dropped
or instantly Cancelled — the operations are retained); and a cancel-requested
group is drained over subsequent steps until every slot is Cancelled. -/
theorem no_discard_and_drained_cancellation :
    (∀ (g : Group α) (r : GroupResult α), g.step.2.2 = some r →
      ∀ s ∈ g.step.1.slots, s.state.isTerminal = true) ∧
    (∀ (g : Group α) (i : Nat) (s : Slot α), g.slots[i]? = some s →
      ∃ s', g.cancelAll.slots[i]? = some s' ∧ s'.op = s.op ∧
        (s.state = .running → s'.state = .cancelRequested)) ∧
    (∀ (g : Group α),
      (∀ s ∈ g.slots, s.state = .cancelRequested ∨ s.state = .cancelled) →
      ∀ fuel, (∀ s ∈ g.slots, slotMeasure s ≤ fuel) →
      ∀ s ∈ (g.promptIter fuel).slots, s.state = .cancelled) := by
  refine ⟨?_, ?_, ?_⟩
  · intro g r hr s hs
    rw [Group.step_res] at hr
    split at hr
    case isTrue hT => exact (allTerminal_iff _).mp hT s hs
    case isFalse => cases hr
  · intro g i s hi
    cases hst : s.state with
    | running =>
      refine ⟨{ s with state := .cancelRequested }, ?_, rfl, fun _ => rfl⟩
      simp only [Group.cancelAll, List.getElem?_map, hi, Option.map_some]
      simp [hst]
    | finished out =>
      refine ⟨{ s with state := .cancelled }, ?_, rfl, ?_⟩
      · simp only [Group.cancelAll, List.getElem?_map, hi, Option.map_some]
        simp [hst]
      · intro h
        cases h
    | cancelRequested =>
      refine ⟨s, ?_, rfl, ?_⟩
      · simp only [Group.cancelAll, List.getElem?_map, hi, Option.map_some]
        simp [hst]
      · intro h
        cases h
    | cancelled =>
      refine ⟨s, ?_, rfl, ?_⟩
      · simp only [Group.cancelAll, List.getElem?_map, hi, Option.map_some]
        simp [hst]
      · intro h
        cases h
  · intro g hcr fuel hb s hs
    rw [promptIter_drain fuel g hcr] at hs
    rcases List.mem_map.mp hs with ⟨s0, hs0, rfl⟩
    exact promptSlotIter_cancelled fuel s0 (hcr s0 hs0) (hb s0 hs0)

/-- Witness for C2: each conjunct at a concrete group — a race step that
yields leaves both slots terminal; cancelling a group with a running slot
marks it CancelRequested; a cancel-requested slot with cancel delay 1 is
drained to Cancelled within 2 steps. -/
theorem no_discard_and_drained_cancellation_witness :
    (∀ s ∈ (mkGroup .race (fun _ => false) [(⟨0, 5, 0⟩ : Operation Nat), ⟨0, 6, 0⟩]).step.1.slots,
      s.state.isTerminal = true) ∧
    (∃ s', (mkGroup .zip (fun _ => false)
        [(⟨1, 7, 2⟩ : Operation Nat)]).cancelAll.slots[0]? = some s' ∧
      s'.op = (mkSlot (⟨1, 7, 2⟩ : Operation Nat)).op ∧
      ((mkSlot (⟨1, 7, 2⟩ : Operation Nat)).state = .running → s'.state = .cancelRequested)) ∧
    (∀ s ∈ ((Group.mk .race (fun _ => false)
        [Slot.mk ⟨0, 5, 1⟩ 0 0 .cancelRequested false]
        (some (0, 5)) : Group Nat).promptIter 2).slots, s.state = .cancelled) :=
  ⟨no_discard_and_drained_cancellation.1 _ (.winner 5) (by decide),
   no_discard_and_drained_cancellation.2.1 _ 0 (mkSlot ⟨1, 7, 2⟩) (by decide),
   no_discard_and_drained_cancellation.2.2 _ (by decide) 2 (by decide)⟩

/-- Counterexample to C3 as stated: delivering two wake signals to a slot
that is already terminal (slot 0 of `wakeTermGroup`, Finished) results in
zero polls of that slot on the next driver step — not exactly one. -/
theorem wake_coalescing_counterexample :
    ¬ (((wakeTermGroup.deliverWakes 0 2).step.2.1).count 0 = 1) := by
  decide

/-- C3 (amended): wake delivery to a slot is idempotent — K ≥ 1 wake signals
delivered between two driver steps equal a single delivery; on the next step
a slot in a pollable state (Running or CancelRequested) is polled exactly
once while a slot in a terminal state is not polled at all; and a step only
ever polls slots whose pending-wake flag is set. -/
theorem wake_coalescing (g : Group α) (i K : Nat) (s : Slot α)
    (hK : 1 ≤ K) (hi : g.slots[i]? = some s) :
    g.deliverWakes i K = g.deliverWake i ∧
      (s.state.pollable = true → ((g.deliverWake i).step.2.1).count i = 1) ∧
      (s.state.isTerminal = true → ((g.deliverWake i).step.2.1).count i = 0) ∧
      ∀ j ∈ g.step.2.1, ∃ t, g.slots[j]? = some t ∧ t.wake = true := by
  refine ⟨Group.deliverWakes_eq g i K hK, ?_, ?_, ?_⟩
  · intro hp
    rw [Group.step_polled]
    have hcount := polledOf_count (setWake g.slots i) 0 i
    rw [Nat.zero_add] at hcount
    show (polledOf 0 (setWake g.slots i)).count i = 1
    rw [hcount, setWake_getElem? g.slots i s hi]
    simp [hp]
  · intro hterm
    have hp : s.state.pollable = false := by
      cases hs : s.state
      · rw [hs] at hterm
        simp [SlotState.isTerminal] at hterm
      · rfl
      · rw [hs] at hterm
        simp [SlotState.isTerminal] at hterm
      · rfl
    rw [Group.step_polled]
    have hcount := polledOf_count (setWake g.slots i) 0 i
    rw [Nat.zero_add] at hcount
    show (polledOf 0 (setWake g.slots i)).count i = 0
    rw [hcount, setWake_getElem? g.slots i s hi]
    simp [hp]
  · intro j hj
    rw [Group.step_polled] at hj
    rcases polledOf_mem_imp g.slots 0 j hj with ⟨t, ht, hw, _⟩
    rw [Nat.sub_zero] at ht
    exact ⟨t, ht, hw⟩

/-- Witness for C3: three wakes to the cancel-requested slot 0 of
`wakeDemoGroup` act as one, and the next step polls slot 0 exactly once. -/
theorem wake_coalescing_witness :
    wakeDemoGroup.deliverWakes 0 3 = wakeDemoGroup.deliverWake 0 ∧
      ((Slot.mk (⟨0, 5, 2⟩ : Operation Nat) 0 0 .cancelRequested false).state.pollable = true →
        ((wakeDemoGroup.deliverWake 0).step.2.1).count 0 = 1) ∧
      ((Slot.mk (⟨0, 5, 2⟩ : Operation Nat) 0 0 .cancelRequested false).state.isTerminal = true →
        ((wakeDemoGroup.deliverWake 0).step.2.1).count 0 = 0) ∧
      ∀ j ∈ wakeDemoGroup.step.2.1, ∃ t, wakeDemoGroup.slots[j]? = some t ∧ t.wake = true :=
  wake_coalescing wakeDemoGroup 0 3 (Slot.mk ⟨0, 5, 2⟩ 0 0 .cancelRequested false)
    (by decide) (by decide)

/-- C4: a zip join group's Group Result lists the slots' outputs in
construction order, regardless of the order in which the slots finish. -/
theorem zip_order_preservation (isErr : α → Bool) (ops : List (Operation α)) (fuel : Nat)
    (hfuel : (mkGroup .zip isErr ops).measure < fuel) :
    (mkGroup .zip isErr ops).promptRun fuel =
      some (.allOutputs (ops.map Operation.output)) := by
  have hinv := zipInv_mkGroup isErr ops
  rcases promptRun_total fuel _ (zipInv_triggerFree hinv) (Or.inl rfl) hfuel with ⟨r, hr⟩
  rw [hr, zip_run_eq fuel _ hinv r hr]

/-- Witness for C4: `zip([a, b, c])` with the legs finishing in the order
c (step 1), b (step 2), a (step 3) yields `[a.output, b.output, c.output]`. -/
theorem zip_order_preservation_witness :
    (mkGroup .zip (fun _ => false)
        [(⟨2, 10, 0⟩ : Operation Nat), ⟨1, 20, 0⟩, ⟨0, 30, 0⟩]).promptRun 7 =
      some (.allOutputs [10, 20, 30]) :=
  zip_order_preservation (fun _ => false) [⟨2, 10, 0⟩, ⟨1, 20, 0⟩, ⟨0, 30, 0⟩] 7 (by decide)

/-- C5: for every try_zip group in which some slot's output classifies as an
error — slot i holding the first error observed: every other erroring slot
becomes ready strictly later, or in the same driver step at a higher index —
the Group Result is that first error (any result produced equals it, and one
is produced), and every slot still Running when the error is observed (ready
strictly after the error step) is cancelled: it is CancelRequested from the
trigger step throughout its cancel handshake and has reached Cancelled at
every point where the group has yielded its result. -/
theorem tryZip_fail_fast (isErr : α → Bool) (ops : List (Operation α))
    (i : Nat) (opE : Operation α) (hi : ops[i]? = some opE)
    (herr : isErr opE.output = true)
    (hfirst : ∀ j : Fin ops.length, isErr (ops.get j).output = true →
      opE.readyAfter < (ops.get j).readyAfter ∨
        (opE.readyAfter = (ops.get j).readyAfter ∧ i ≤ j.val)) :
    (∀ (fuel : Nat) (r : GroupResult α),
      (mkGroup .tryZip isErr ops).promptRun fuel = some r → r = .firstError opE.output) ∧
    (∃ fuel : Nat,
      (mkGroup .tryZip isErr ops).promptRun fuel = some (.firstError opE.output)) ∧
    (∀ (j : Nat) (op' : Operation α), ops[j]? = some op' →
      opE.readyAfter < op'.readyAfter →
      (∀ m, m ≤ op'.cancelAfter →
        (((mkGroup .tryZip isErr ops).promptIter
          (opE.readyAfter + 1 + m)).slots[j]?).map Slot.state = some .cancelRequested) ∧
      ∀ (fuel : Nat) (r : GroupResult α),
        (mkGroup .tryZip isErr ops).promptRun fuel = some r →
        (((mkGroup .tryZip isErr ops).promptIter fuel).slots[j]?).map Slot.state =
          some .cancelled) := by
  have htr : Policy.tryZip.triggersOn isErr opE.output = true := herr
  have hfirst' : ∀ (j : Nat) (op' : Operation α), ops[j]? = some op' →
      isErr op'.output = true →
      opE.readyAfter < op'.readyAfter ∨ (opE.readyAfter = op'.readyAfter ∧ i ≤ j) := by
    intro j op' hj he
    obtain ⟨hjl, hget⟩ := getElem?_to_get hj
    have hf := hfirst ⟨j, hjl⟩ (by rw [hget]; exact he)
    rw [hget] at hf
    exact hf
  have hnfAll : ∀ op ∈ ops, op.readyAfter < opE.readyAfter →
      Policy.tryZip.triggersOn isErr op.output = false := by
    intro op hm hra
    show isErr op.output = false
    by_cases he : isErr op.output = true
    · obtain ⟨n, hn⟩ := exists_getElem?_of_mem hm
      rcases hfirst' n op hn he with h1 | h2
      · omega
      · rcases h2 with ⟨h2a, _⟩
        omega
    · revert he
      cases isErr op.output <;> simp
  have hprev : ∀ (j : Nat) (op' : Operation α), j < i → ops[j]? = some op' →
      Policy.tryZip.triggersOn isErr op'.output = true →
      opE.readyAfter < op'.readyAfter := by
    intro j op' hji hj htr'
    rcases hfirst' j op' hj htr' with h1 | h2
    · exact h1
    · rcases h2 with ⟨_, h2b⟩
      omega
  refine ⟨?_, ?_, ?_⟩
  · exact firstTrigger_value .tryZip isErr ops i opE hi htr hnfAll hprev
  · exact firstTrigger_yields .tryZip isErr ops i opE hi htr hnfAll hprev
  · intro j op' hj hra
    exact ⟨fun m hm =>
        firstTrigger_cancelRequested .tryZip isErr ops i opE hi htr hnfAll hprev
          j op' hj hra m hm,
      fun fuel r hr =>
        firstTrigger_cancelled .tryZip isErr ops i opE hi htr hnfAll hprev
          j op' hj hra fuel r hr⟩

/-- Witness for C5: try_zip([op1, op2]) with op1 erroring immediately (output
7 classified as error) and op2 taking arbitrarily long: the group yields the
first error 7. -/
theorem tryZip_fail_fast_witness :
    ∃ fuel : Nat, (mkGroup .tryZip (fun n => n == 7)
        [(⟨0, 7, 0⟩ : Operation Nat), ⟨99, 8, 2⟩]).promptRun fuel =
      some (.firstError 7) :=
  (tryZip_fail_fast (fun n => n == 7) [⟨0, 7, 0⟩, ⟨99, 8, 2⟩] 0 ⟨0, 7, 0⟩ (by decide)
    (by decide) (by decide)).2.1

/-- C6: for every race group, the Group Result is the output of the
earliest-ready slot, ties broken by lowest index: slot i such that every
other slot becomes ready strictly later or in the same driver step at a
higher index. In particular, when two or more slots become ready during the
same driver step, the lowest index among them wins, whatever the other
slots are still doing. -/
theorem race_tie_break (isErr : α → Bool) (ops : List (Operation α))
    (i : Nat) (opE : Operation α) (hi : ops[i]? = some opE)
    (hfirst : ∀ j : Fin ops.length,
      opE.readyAfter < (ops.get j).readyAfter ∨
        (opE.readyAfter = (ops.get j).readyAfter ∧ i ≤ j.val)) :
    (∀ (fuel : Nat) (r : GroupResult α),
      (mkGroup .race isErr ops).promptRun fuel = some r → r = .winner opE.output) ∧
    ∃ fuel : Nat, (mkGroup .race isErr ops).promptRun fuel = some (.winner opE.output) := by
  have htr : Policy.race.triggersOn isErr opE.output = true := rfl
  have hfirst' : ∀ (j : Nat) (op' : Operation α), ops[j]? = some op' →
      opE.readyAfter < op'.readyAfter ∨ (opE.readyAfter = op'.readyAfter ∧ i ≤ j) := by
    intro j op' hj
    obtain ⟨hjl, hget⟩ := getElem?_to_get hj
    have hf := hfirst ⟨j, hjl⟩
    rw [hget] at hf
    exact hf
  have hnfAll : ∀ op ∈ ops, op.readyAfter < opE.readyAfter →
      Policy.race.triggersOn isErr op.output = false := by
    intro op hm hra
    exfalso
    obtain ⟨n, hn⟩ := exists_getElem?_of_mem hm
    rcases hfirst' n op hn with h1 | h2
    · omega
    · rcases h2 with ⟨h2a, _⟩
      omega
  have hprev : ∀ (j : Nat) (op' : Operation α), j < i → ops[j]? = some op' →
      Policy.race.triggersOn isErr op'.output = true → opE.readyAfter < op'.readyAfter := by
    intro j op' hji hj _
    rcases hfirst' j op' hj with h1 | h2
    · exact h1
    · rcases h2 with ⟨_, h2b⟩
      omega
  exact ⟨firstTrigger_value .race isErr ops i opE hi htr hnfAll hprev,
         firstTrigger_yields .race isErr ops i opE hi htr hnfAll hprev⟩

/-- Witness for C6: a three-slot race where slots 1 and 2 both become ready
on the second driver step while slot 0 is still pending: slot 1, the lowest
index among the tying slots, wins with output 7. -/
theorem race_tie_break_witness :
    ∃ fuel : Nat, (mkGroup .race (fun _ => false)
        [(⟨5, 9, 0⟩ : Operation Nat), ⟨1, 7, 0⟩, ⟨1, 8, 0⟩]).promptRun fuel =
      some (.winner 7) :=
  (race_tie_break (fun _ => false) [⟨5, 9, 0⟩, ⟨1, 7, 0⟩, ⟨1, 8, 0⟩] 1 ⟨1, 7, 0⟩ (by decide)
    (by decide)).2

/-- C7: when every slot of a race_ok group errors, all slots run to natural
completion (no slot is ever cancel-requested or cancelled) and the Group
Result collects all the error values in construction order. -/
theorem raceOk_exhaustion (isErr : α → Bool) (ops : List (Operation α))
    (herr : ∀ op ∈ ops, isErr op.output = true) :
    (∀ fuel, (mkGroup .raceOk isErr ops).measure < fuel →
      (mkGroup .raceOk isErr ops).promptRun fuel =
        some (.allErrors (ops.map Operation.output))) ∧
    ∀ k s, s ∈ ((mkGroup .raceOk isErr ops).promptIter k).slots →
      s.state ≠ .cancelRequested ∧ s.state ≠ .cancelled := by
  have hinv := raceOkErrInv_mkGroup isErr ops herr
  constructor
  · intro fuel hfuel
    rcases promptRun_total fuel _ (raceOkErrInv_triggerFree hinv) (Or.inr rfl) hfuel with ⟨r, hr⟩
    rw [hr, raceOkErr_run_eq fuel _ hinv r hr]
  · intro k s hs
    rcases (raceOkErrInv_promptIter hinv k).2.2.2.2 s hs with hr | hf
    · constructor <;> simp [hr]
    · constructor <;> simp [hf]

/-- Witness for C7: `race_ok([op1, op2])` with both outputs classified as
errors E1 = 1 and E2 = 2 yields the ordered collection `[1, 2]`. -/
theorem raceOk_exhaustion_witness :
    (mkGroup .raceOk (fun _ => true) [(⟨0, 1, 0⟩ : Operation Nat), ⟨0, 2, 0⟩]).promptRun 3 =
      some (.allErrors [1, 2]) :=
  (raceOk_exhaustion (fun _ => true) [⟨0, 1, 0⟩, ⟨0, 2, 0⟩] (by decide)).1 3 (by decide)

/-- C8: `CatchUnwind::poll` converts a panic in the inner poll into
`Ready(Err(payload))`, maps `Ready(v)` to `Ready(Ok(v))` and passes `Pending`
through — a fault in one leg becomes a terminal error output instead of
propagating. -/
theorem catchUnwind_poll_spec (π β : Type) (p : π) (v : β) :
    CatchUnwind.poll (.panicked p : PanicOutcome π (Poll β)) = .ready (.error p) ∧
    CatchUnwind.poll (.completed (.ready v) : PanicOutcome π (Poll β)) = .ready (.ok v) ∧
    CatchUnwind.poll (.completed .pending : PanicOutcome π (Poll β)) = .pending :=
  ⟨rfl, rfl, rfl⟩

/-- C9: the `apply_on_tuples` macro instantiates the tuple combinators at
every arity from 2 through 26 inclusive and at no other arity. -/
theorem apply_on_tuples_arities (n : Nat) :
    n ∈ applyOnTuplesArities ↔ 2 ≤ n ∧ n ≤ 26 := by
  simp [applyOnTuplesArities]
  omega

/-- C10: `CatchUnwind::poll_cancel` swallows a panic in the inner
`poll_cancel`, discarding the payload (the result does not depend on it) and
reporting cancellation as complete immediately; a non-panicking inner result
is passed through unchanged. -/
theorem catchUnwind_pollCancel_spec (π : Type) (p q : π) :
    CatchUnwind.pollCancel (.panicked p : PanicOutcome π (Poll Unit)) = .ready () ∧
    CatchUnwind.pollCancel (.panicked p : PanicOutcome π (Poll Unit)) =
      CatchUnwind.pollCancel (.panicked q) ∧
    ∀ w : Poll Unit, CatchUnwind.pollCancel (.completed w : PanicOutcome π (Poll Unit)) = w :=
  ⟨rfl, rfl, fun _ => rfl⟩

end Completion
